import Mathlib

/-!
Shallow embedding of the narrative-entity-extraction pipeline
(https://github.com/shanefrancis93/narrative-entity-extraction) in Lean 4,
with theorems checking the natural-language specification against the code.

Conventions used throughout:
- JavaScript numbers that the code only ever uses as non-negative integers
  (mention counts, indices, chapter numbers) are modelled as `Nat`; sentence
  gaps, which can be negative, as `Int`.
- JavaScript objects used as string-keyed dictionaries are modelled as
  insertion-ordered association lists; `Map` is modelled the same way.
- `Array.prototype.sort` with a consistent comparator is, per the ECMAScript
  spec, a stable sort; it is modelled by `stableSortBy pre`, a stable
  insertion sort, where `pre a b = true` iff the JS comparator returns
  `<= 0` on `(a, b)` (element `a` may stay in front of `b`).
-/

/-- Stable insertion of `x` into `l`, placing `x` after every prefix element
`y` with `pre y x = true` (i.e. after every element the JS comparator does not
require to move behind `x`). -/
def stableInsert (pre : α → α → Bool) (x : α) : List α → List α
  | [] => [x]
  | y :: ys => if pre y x then y :: stableInsert pre x ys else x :: y :: ys

/-- Stable sort: model of `Array.prototype.sort` with a consistent comparator.
`pre a b = true` iff the comparator returns `<= 0` on `(a, b)`. -/
def stableSortBy (pre : α → α → Bool) (l : List α) : List α :=
  l.foldl (fun acc x => stableInsert pre x acc) []

/-- JS `x || fallback` on a dictionary lookup of a number: `0`, like a missing
key, is falsy and picks the fallback. -/
def jsOrNat (o : Option Nat) (fallback : Nat) : Nat :=
  match o with
  | some n => if n = 0 then fallback else n
  | none => fallback

/-- Character-list implementation of `toLowerCase` (ASCII case folding, which
covers the corpus; see also `ciCharEq`). -/
def strToLower (s : String) : String :=
  String.mk (s.data.map Char.toLower)

/-- Character-list implementation of `trim`. -/
def strTrim (s : String) : String :=
  String.mk ((s.data.dropWhile Char.isWhitespace).reverse.dropWhile Char.isWhitespace).reverse

/-- Character-list implementation of `endsWith`. -/
def strEndsWith (s suffixStr : String) : Bool :=
  suffixStr.data.reverse.isPrefixOf s.data.reverse

/-- Lexicographic comparison of character lists. -/
def listCharLe : List Char → List Char → Bool
  | [], _ => true
  | _ :: _, [] => false
  | a :: as, b :: bs => if a < b then true else if b < a then false else listCharLe as bs

/-- JS string comparison `a <= b` (code-unit lexicographic; every string in
play is ASCII). -/
def strLeb (a b : String) : Bool :=
  listCharLe a.data b.data

/-- Split at every occurrence of a separator character, keeping empty pieces
(`text.split('\n')`). -/
def splitRetain (sep : Char) : List Char → List Char → List String
  | [], acc => [String.mk acc.reverse]
  | c :: cs, acc =>
    if c == sep then String.mk acc.reverse :: splitRetain sep cs []
    else splitRetain sep cs (c :: acc)

/-- First-appearance position of a form or entity: `{chapter, paragraph}`
(the `form` field the extractor also stores is irrelevant to every claim and
carried here for completeness). -/
structure Appearance where
  chapter : Nat
  paragraph : Nat
  form : String := ""
deriving DecidableEq, Repr

/-- One surface-form variant of an entity: `{form, count}`. -/
structure Variant where
  form : String
  count : Nat
deriving DecidableEq, Repr

/-- A tiered entity as produced by `tier-entities.js` and consumed by
`llm-coref-merge.js`: `{id, canonicalName, mentions, variants, ...}`.
`mergedFrom` is absent in JS until the first merge writes it; since the code
reads it only through `primary.mergedFrom || []`, the absent state is
modelled as `[]`. `firstAppearance` may be absent (`Option`). -/
structure Entity where
  id : String
  canonicalName : String
  mentions : Nat
  variants : List Variant
  mergedFrom : List String := []
  firstAppearance : Option Appearance := none
  qualifiedBy : Option String := none
  notes : Option String := none
deriving DecidableEq, Repr

/-- Comparator model for `(a, b) => b.mentions - a.mentions`:
`a` may stay in front of `b` iff `b.mentions - a.mentions <= 0`. -/
def mentionsDescPre (a b : Entity) : Bool :=
  b.mentions ≤ a.mentions

/-- Model of the `Map` built by `applyMerges`: entities in insertion order,
keyed by `canonicalName`. `Map.set` on a fresh key appends; on an existing key
it overwrites the value in place. -/
def emSet (m : List Entity) (e : Entity) : List Entity :=
  if m.any (fun x => x.canonicalName == e.canonicalName) then
    m.map (fun x => if x.canonicalName == e.canonicalName then e else x)
  else
    m ++ [e]

/-- `entityMap.get(name)`. -/
def emGet (m : List Entity) (k : String) : Option Entity :=
  m.find? (fun x => x.canonicalName == k)

/-- `entityMap.delete(name)`. -/
def emDelete (m : List Entity) (k : String) : List Entity :=
  m.filter (fun x => !(x.canonicalName == k))

/-- Write back the mutated primary entity at its key (JS mutates the shared
object in place, so the map's slot already holds it). -/
def emReplace (m : List Entity) (k : String) (e : Entity) : List Entity :=
  m.map (fun x => if x.canonicalName == k then e else x)

/-- One record of `appliedMerges`. -/
structure AppliedMerge where
  primary : String
  merged : List String
  newMentionCount : Nat
deriving DecidableEq, Repr

/-- One record of `skippedMerges`. -/
structure SkippedMerge where
  group : List String
  reason : String
deriving DecidableEq, Repr

/-- Running state of the `for (const group of merges)` loop. -/
structure MergeState where
  map : List Entity
  applied : List AppliedMerge
  skipped : List SkippedMerge
deriving DecidableEq, Repr

/-- The body of the first `for (const other of others)` loop of `applyMerges`:
append `other`'s variants, then add `other.canonicalName` as a variant if the
combined list does not already carry it, accumulate mentions, record merge
provenance. -/
def mergeOther (p o : Entity) : Entity :=
  let vs := p.variants ++ o.variants
  let vs :=
    if vs.any (fun v => v.form == o.canonicalName) then vs
    else vs ++ [{ form := o.canonicalName, count := o.mentions }]
  { p with
    variants := vs
    mentions := p.mentions + o.mentions
    mergedFrom := p.mergedFrom ++ [o.canonicalName] }

/-- The body of the second `for (const other of others)` loop:
`if (other.firstAppearance && (!primary.firstAppearance || other.firstAppearance < primary.firstAppearance))`.
Both `firstAppearance` values are plain objects; JS `<` converts each side to
the primitive string "[object Object]", so the third disjunct is always
false and adoption happens exactly when the primary has no first-appearance
of its own. -/
def adoptFirstAppearance (p o : Entity) : Entity :=
  match o.firstAppearance, p.firstAppearance with
  | some fa, none => { p with firstAppearance := some fa }
  | _, _ => p

/-- One iteration of the merge-group loop of `applyMerges`. The skipped-merge
reason strings follow the source. (The JS also skips non-array groups with
the same "Invalid group structure" reason; in this typed model every group is
a list, so only the length check remains.) -/
def applyMergeGroup (st : MergeState) (group : List String) : MergeState :=
  if group.length < 2 then
    { st with skipped := st.skipped ++ [{ group := group, reason := "Invalid group structure" }] }
  else
    let groupEntities := group.filterMap (emGet st.map)
    if groupEntities.length < 2 then
      { st with skipped := st.skipped ++
          [{ group := group
             reason := "Only " ++ toString groupEntities.length ++ " of " ++
               toString group.length ++ " names found in entities" }] }
    else
      match stableSortBy mentionsDescPre groupEntities with
      | [] => st
      | primary :: others =>
        let merged := others.foldl mergeOther primary
        let merged := others.foldl adoptFirstAppearance merged
        let map := others.foldl (fun m o => emDelete m o.canonicalName) st.map
        let map := emReplace map primary.canonicalName merged
        { map := map
          applied := st.applied ++
            [{ primary := merged.canonicalName
               merged := others.map (fun e => e.canonicalName)
               newMentionCount := merged.mentions }]
          skipped := st.skipped }

/-- Result record of `applyMerges`. -/
structure MergeResult where
  entities : List Entity
  appliedMerges : List AppliedMerge
  skippedMerges : List SkippedMerge
deriving DecidableEq, Repr

/-- `applyMerges(entities, merges)` from `llm-coref-merge.js`. The embedding
is the functional reading of the in-place mutation: within a merge group each
name is resolved against the current map before any mutation of that group is
applied, absorbed entities are deleted, and the mutated primary is written
back at its key. (Like the JS `Map`-based original, it treats the entities of
one merge group as pairwise-distinct objects; the theorems below assume
pairwise-distinct canonical names, under which the two agree.) -/
def applyMerges (entities : List Entity) (merges : List (List String)) : MergeResult :=
  let entityMap := entities.foldl emSet []
  let st := merges.foldl applyMergeGroup { map := entityMap, applied := [], skipped := [] }
  { entities := stableSortBy mentionsDescPre st.map
    appliedMerges := st.applied
    skippedMerges := st.skipped }

/-- Token usage as reported by a provider response (`result.usage` may be
absent: the code reads it via `result.usage?.prompt_tokens || 0`). -/
structure TokenUsage where
  promptTokens : Nat
  completionTokens : Nat
deriving DecidableEq, Repr

/-- The pluggable completion provider's successful response shape. -/
structure ProviderResponse where
  content : String
  usage : Option TokenUsage := none
deriving DecidableEq, Repr

/-- Token counters attached to a co-reference result. -/
structure TokenCounts where
  input : Nat
  output : Nat
deriving DecidableEq, Repr

/-- Model of `JSON.parse` applied to the extracted block followed by the
`Array.isArray(parsed.merges)` structure test: `merges = none` means the
parsed object has no `merges` array. `JSON.parse` itself throwing is the
`Except.error` case of the `parseJson` parameter. -/
structure ParsedResponse where
  merges : Option (List (List String))
deriving DecidableEq, Repr

/-- Successful result of `llmCorefMerge`. -/
structure CorefOutput where
  merges : List (List String)
  tokens : TokenCounts
  rawResponse : Option String := none
deriving DecidableEq, Repr

/-- One `{ name, mentions }` pair sent to the LLM. -/
structure EntityName where
  name : String
  mentions : Nat
deriving DecidableEq, Repr

/-- `content.match(/\x7b[\s\S]*\x7d/)`: the (unique) match runs from the
first opening brace to the last closing brace at or after it. -/
def extractJsonBlock (s : String) : Option String :=
  let cs := s.data
  match cs.findIdx? (fun c => c == '{') with
  | none => none
  | some i =>
    let rest := cs.drop i
    match (rest.reverse.findIdx? (fun c => c == '}')) with
    | none => none
    | some jFromEnd => some ⟨rest.take (rest.length - jFromEnd)⟩

/-- `llmCorefMerge(entityNames, options)` from `llm-coref-merge.js`.
The one suspension point — the provider call — is external: its outcome
(resolved response or thrown error) is the `providerResult` argument, and
`JSON.parse` of the extracted block is the `parseJson` argument. The prompt
string built from `entityNames` (sorted descending by mentions) only feeds
the provider and has no further observable effect, so it is not materialised.
An `Except.error` result models the function throwing to its caller. -/
def llmCorefMerge (parseJson : String → Except String ParsedResponse)
    (entityNames : List EntityName)
    (providerResult : Except String ProviderResponse) : Except String CorefOutput :=
  if entityNames.length = 0 then
    Except.ok { merges := [], tokens := { input := 0, output := 0 } }
  else
    match providerResult with
    | Except.error e => Except.error e
    | Except.ok result =>
      let tokens : TokenCounts :=
        { input := jsOrNat (result.usage.map (fun u => u.promptTokens)) 0
          output := jsOrNat (result.usage.map (fun u => u.completionTokens)) 0 }
      match extractJsonBlock result.content with
      | none => Except.error "No JSON found in LLM response"
      | some block =>
        match parseJson block with
        | Except.error e => Except.error e
        | Except.ok parsed =>
          match parsed.merges with
          | none => Except.error "Invalid response structure: missing merges array"
          | some ms =>
            Except.ok { merges := ms, tokens := tokens, rawResponse := some result.content }

/-- The statistics record of a co-reference run. -/
structure CorefStats where
  error : Option String := none
  groupsIdentified : Nat
  entitiesMerged : Nat
  appliedMerges : List AppliedMerge
  skippedMerges : List SkippedMerge
  llmTokensUsed : Option TokenCounts := none
deriving DecidableEq, Repr

/-- Result record of `runCorefResolution` (the `debug` field of the source
carries only the raw prompt/response strings and is omitted). -/
structure CorefResolution where
  confirmedCharacters : List Entity
  candidates : List Entity
  corefStats : CorefStats
deriving DecidableEq, Repr

/-- The `allEntityNames` list `runCorefResolution` sends to the LLM. -/
def allEntityNamesOf (confirmedCharacters candidates : List Entity) : List EntityName :=
  confirmedCharacters.map (fun e => { name := e.canonicalName, mentions := e.mentions }) ++
    candidates.map (fun e => { name := e.canonicalName, mentions := e.mentions })

/-- `runCorefResolution(confirmedCharacters, candidates, options)` from
`llm-coref-merge.js`. The `try/catch` around the `llmCorefMerge` call is the
`Except.error` branch: it returns the input lists unchanged together with an
error string in the stats, so no error reaches the caller (the return type is
a plain record, not `Except`). -/
def runCorefResolution (parseJson : String → Except String ParsedResponse)
    (confirmedCharacters candidates : List Entity)
    (providerResult : Except String ProviderResponse) : CorefResolution :=
  let allEntityNames := allEntityNamesOf confirmedCharacters candidates
  match llmCorefMerge parseJson allEntityNames providerResult with
  | Except.error msg =>
    { confirmedCharacters := confirmedCharacters
      candidates := candidates
      corefStats :=
        { error := some ("LLM call failed: " ++ msg)
          groupsIdentified := 0
          entitiesMerged := 0
          appliedMerges := []
          skippedMerges := [] } }
  | Except.ok corefResult =>
    let allEntities := confirmedCharacters ++ candidates
    let confirmedIds := confirmedCharacters.map (fun e => e.id)
    let mergeResult := applyMerges allEntities corefResult.merges
    let wasConfirmed := fun (e : Entity) =>
      confirmedIds.contains e.id ||
        e.mergedFrom.any (fun name =>
          match allEntities.find? (fun x => x.canonicalName == name) with
          | some original => confirmedIds.contains original.id
          | none => false)
    { confirmedCharacters := mergeResult.entities.filter wasConfirmed
      candidates := mergeResult.entities.filter (fun e => !(wasConfirmed e))
      corefStats :=
        { groupsIdentified := corefResult.merges.length
          entitiesMerged := (mergeResult.appliedMerges.map (fun m => m.merged.length)).sum
          appliedMerges := mergeResult.appliedMerges
          skippedMerges := mergeResult.skippedMerges
          llmTokensUsed := some corefResult.tokens } }

/-- Insertion-ordered string-keyed counts dictionary (a JS object such as
`mentionCounts`). -/
abbrev Counts := List (String × Nat)

/-- Object property read: `m[k]` as an `Option`. -/
def countsGet (m : Counts) (k : String) : Option Nat :=
  (m.find? (fun p => p.1 == k)).map (fun p => p.2)

/-- JS truthiness of `m[k]`: the key is present with a non-zero value. -/
def countsTruthy (o : Option Nat) : Bool :=
  match o with
  | some n => n != 0
  | none => false

/-- `m[k] = (m[k] || 0) + d`, preserving object key order. -/
def alIncrBy (m : Counts) (k : String) (d : Nat) : Counts :=
  if m.any (fun p => p.1 == k) then
    m.map (fun p => if p.1 == k then (p.1, p.2 + d) else p)
  else m ++ [(k, d)]

/-- One positioned mention as produced by `extract-proper-nouns.js`. -/
structure Mention where
  form : String
  normalized : String
  isPossessive : Bool
  hasTitle : Bool
  titleType : Option String := none
  isAtSentenceStart : Bool := false
  chapter : Nat := 0
  paragraph : Nat := 0
  line : Nat := 0
deriving DecidableEq, Repr

/-- `form.split(/\s+/)`: split on runs of whitespace; leading or trailing
whitespace yields an empty first or last piece, and the empty string yields
`[""]`, as in JS. (Lean's `Char.isWhitespace` covers space, tab, CR and LF;
JS `\s` adds exotic Unicode spaces that the corpus does not contain.) -/
def splitWsChars : Bool → List Char → List Char → List String
  | _, acc, [] => [⟨acc.reverse⟩]
  | inRun, acc, c :: cs =>
    if c.isWhitespace then
      if inRun then splitWsChars true acc cs
      else ⟨acc.reverse⟩ :: splitWsChars true [] cs
    else splitWsChars false (c :: acc) cs

/-- `form.split(/\s+/)` on a string. -/
def splitWs (s : String) : List String := splitWsChars false [] s.data

/-- `form.replace(/'s$/i, '')`: strip one trailing `'s` (case-insensitive). -/
def stripPossessiveSuffix (s : String) : String :=
  match s.data.reverse with
  | sC :: q :: rest =>
    if (sC == 's' || sC == 'S') && q == '\'' then ⟨rest.reverse⟩ else s
  | _ => s

/-- A categorised full-name form: 2+ untitled words. -/
structure FullNameForm where
  form : String
  count : Nat
deriving DecidableEq, Repr

/-- A categorised titled form: `{form, title, name, count, titleType}`. -/
structure TitledNameForm where
  form : String
  title : String
  name : String
  count : Nat
  titleType : Option String := none
deriving DecidableEq, Repr

/-- A categorised single-name form (possessive suffix already stripped). -/
structure SingleNameForm where
  form : String
  count : Nat
deriving DecidableEq, Repr

/-- Output of `categorizeFormsFromMentions`. -/
structure CategorizedForms where
  fullNames : List FullNameForm
  titledNames : List TitledNameForm
  singleNames : List SingleNameForm
  possessives : List (String × String)
deriving DecidableEq, Repr

/-- Intermediate `Map`s of `categorizeFormsFromMentions`, insertion-ordered. -/
structure CatState where
  fullNames : List (String × Nat)
  titledNames : List (String × TitledNameForm)
  singleNames : List (String × Nat)
  possessives : List (String × String)
deriving DecidableEq, Repr

/-- `titledNames` update: create the entry (with title data from this first
mention) if absent, then `count++`. -/
def titledIncr (m : List (String × TitledNameForm)) (key : String)
    (entry : TitledNameForm) : List (String × TitledNameForm) :=
  if m.any (fun p => p.1 == key) then
    m.map (fun p => if p.1 == key then (p.1, { p.2 with count := p.2.count + 1 }) else p)
  else m ++ [(key, { entry with count := 1 })]

/-- `possessives.set(form, base)`. -/
def possSet (m : List (String × String)) (k v : String) : List (String × String) :=
  if m.any (fun p => p.1 == k) then
    m.map (fun p => if p.1 == k then (p.1, v) else p)
  else m ++ [(k, v)]

/-- One loop iteration of `categorizeFormsFromMentions`. -/
def categorizeStep (mentionCounts : Counts) (st : CatState) (mention : Mention) : CatState :=
  let form := mention.normalized
  let words := splitWs form
  if mention.hasTitle && decide (2 ≤ words.length) then
    match words with
    | [] => st
    | title :: restWords =>
      let name := String.intercalate " " restWords
      let entry : TitledNameForm :=
        { form := form, title := title, name := name, count := 0, titleType := mention.titleType }
      { st with titledNames := titledIncr st.titledNames form entry }
  else if 2 ≤ words.length then
    { st with fullNames := alIncrBy st.fullNames form 1 }
  else if words.length = 1 then
    let base := stripPossessiveSuffix form
    let st :=
      if mention.isPossessive then { st with possessives := possSet st.possessives form base }
      else st
    { st with singleNames := alIncrBy st.singleNames base (jsOrNat (countsGet mentionCounts form) 1) }
  else st

/-- `categorizeFormsFromMentions(mentions, mentionCounts)` from
`group-variants.js`. -/
def categorizeFormsFromMentions (mentions : List Mention) (mentionCounts : Counts) :
    CategorizedForms :=
  let st := mentions.foldl (categorizeStep mentionCounts)
    { fullNames := [], titledNames := [], singleNames := [], possessives := [] }
  { fullNames := st.fullNames.map (fun p => { form := p.1, count := p.2 })
    titledNames := st.titledNames.map (fun p => p.2)
    singleNames := st.singleNames.map (fun p => { form := p.1, count := p.2 })
    possessives := st.possessives }

/-- The free-form `evidence` record attached to a group; fields the JS leaves
absent are modelled by their defaults. -/
structure Evidence where
  isFullName : Bool := false
  parts : List String := []
  titlePatterns : List String := []
  isTitledName : Bool := false
  title : Option String := none
  titleType : Option String := none
  isSingleName : Bool := false
  hasPossessive : Bool := false
deriving DecidableEq, Repr

/-- A variant as stored on a group (may carry title flags). -/
structure GroupVariant where
  form : String
  count : Nat
  hasTitle : Bool := false
  titleType : Option String := none
deriving DecidableEq, Repr

/-- A group while being built, before first-appearance and total-mention
fields are attached. -/
structure RawGroup where
  canonicalName : String
  variants : List GroupVariant
  evidence : Evidence
deriving DecidableEq, Repr

/-- A finished entity group. `sentenceStartRatio` is attached later by
`filterJunk` to surviving groups (absent until then). -/
structure EntityGroup where
  canonicalName : String
  variants : List GroupVariant
  evidence : Evidence
  firstAppearance : Appearance
  totalMentions : Nat
  sentenceStartRatio : Option Rat := none
deriving DecidableEq, Repr

/-- State of `buildEntityGroups`: groups built so far and the
`assignedForms` set (insertion-ordered, membership is what matters). -/
structure BuildState where
  groups : List RawGroup
  assigned : List String
deriving DecidableEq, Repr

/-- Priority-1 inner loop over the full name's parts: attach an unclaimed
matching single name (3+ categorised occurrences) and its possessive form. -/
def linkPart (forms : CategorizedForms) (mentionCounts : Counts)
    (ga : RawGroup × List String) (part : String) : RawGroup × List String :=
  let (group, assigned) := ga
  if assigned.contains part then ga
  else
    match forms.singleNames.find? (fun s => s.form == part) with
    | none => ga
    | some singleMatch =>
      if singleMatch.count < 3 then ga
      else
        let singleCount := jsOrNat (countsGet mentionCounts part) singleMatch.count
        let group := { group with variants := group.variants ++ [{ form := part, count := singleCount }] }
        let assigned := assigned ++ [part]
        let possessiveForm := part ++ "'s"
        if countsTruthy (countsGet mentionCounts possessiveForm) then
          ({ group with variants := group.variants ++
              [{ form := possessiveForm, count := (countsGet mentionCounts possessiveForm).getD 0 }] },
           assigned ++ [possessiveForm])
        else (group, assigned)

/-- Priority-1 inner loop over titled names: attach an unclaimed titled form
whose name-part's last word is one of the full name's parts. -/
def linkTitled (mentionCounts : Counts) (parts : List String)
    (ga : RawGroup × List String) (titled : TitledNameForm) : RawGroup × List String :=
  let (group, assigned) := ga
  if assigned.contains titled.form then ga
  else
    let titledParts := splitWs titled.name
    let lastTitledPart := (titledParts.getLast?).getD ""
    if parts.contains lastTitledPart then
      ({ group with
          variants := group.variants ++
            [{ form := titled.form, count := jsOrNat (countsGet mentionCounts titled.form) titled.count,
               hasTitle := true, titleType := titled.titleType }]
          evidence := { group.evidence with titlePatterns := group.evidence.titlePatterns ++ [titled.title] } },
       assigned ++ [titled.form])
    else ga

/-- Priority 1 of `buildEntityGroups`: one full-name anchor candidate. -/
def fullNameStep (forms : CategorizedForms) (mentionCounts : Counts)
    (st : BuildState) (fullName : FullNameForm) : BuildState :=
  if st.assigned.contains fullName.form then st
  else
    let count := jsOrNat (countsGet mentionCounts fullName.form) fullName.count
    if count < 3 then st
    else
      let parts := splitWs fullName.form
      if 2 < parts.length then st
      else
        let skipBothFrequent : Bool :=
          match parts with
          | [p1, p2] =>
            let part1Count :=
              match forms.singleNames.find? (fun s => s.form == p1) with
              | some m => jsOrNat (countsGet mentionCounts p1) m.count
              | none => 0
            let part2Count :=
              match forms.singleNames.find? (fun s => s.form == p2) with
              | some m => jsOrNat (countsGet mentionCounts p2) m.count
              | none => 0
            decide (count * 10 < part1Count) && decide (count * 10 < part2Count)
          | _ => false
        if skipBothFrequent then st
        else
          let group : RawGroup :=
            { canonicalName := fullName.form
              variants := [{ form := fullName.form, count := count }]
              evidence := { isFullName := true, parts := parts } }
          let assigned := st.assigned ++ [fullName.form]
          let (group, assigned) := parts.foldl (linkPart forms mentionCounts) (group, assigned)
          let (group, assigned) := forms.titledNames.foldl (linkTitled mentionCounts parts) (group, assigned)
          { groups := st.groups ++ [group], assigned := assigned }

/-- Priority 2 of `buildEntityGroups`: one remaining titled name. -/
def titledStep (forms : CategorizedForms) (mentionCounts : Counts)
    (st : BuildState) (titled : TitledNameForm) : BuildState :=
  if st.assigned.contains titled.form then st
  else
    let group : RawGroup :=
      { canonicalName := titled.form
        variants := [{ form := titled.form,
                       count := jsOrNat (countsGet mentionCounts titled.form) titled.count,
                       hasTitle := true }]
        evidence := { isTitledName := true, title := some titled.title, titleType := titled.titleType } }
    let assigned := st.assigned ++ [titled.form]
    let namePart := titled.name
    let (group, assigned) :=
      if assigned.contains namePart then (group, assigned)
      else
        match forms.singleNames.find? (fun s => s.form == namePart) with
        | none => (group, assigned)
        | some singleMatch =>
          let group := { group with
            variants := group.variants ++
              [{ form := namePart, count := jsOrNat (countsGet mentionCounts namePart) singleMatch.count }]
            canonicalName := namePart }
          let assigned := assigned ++ [namePart]
          let possessiveForm := namePart ++ "'s"
          if countsTruthy (countsGet mentionCounts possessiveForm) then
            ({ group with variants := group.variants ++
                [{ form := possessiveForm, count := (countsGet mentionCounts possessiveForm).getD 0 }] },
             assigned ++ [possessiveForm])
          else (group, assigned)
    { groups := st.groups ++ [group], assigned := assigned }

/-- Priority 3 of `buildEntityGroups`: one remaining single name. -/
def singleStep (mentionCounts : Counts) (st : BuildState) (single : SingleNameForm) : BuildState :=
  if st.assigned.contains single.form then st
  else if single.count < 3 then st
  else
    let group : RawGroup :=
      { canonicalName := single.form
        variants := [{ form := single.form, count := jsOrNat (countsGet mentionCounts single.form) single.count }]
        evidence := { isSingleName := true } }
    let assigned := st.assigned ++ [single.form]
    let possessiveForm := single.form ++ "'s"
    let (group, assigned) :=
      if countsTruthy (countsGet mentionCounts possessiveForm) then
        ({ group with
            variants := group.variants ++
              [{ form := possessiveForm, count := (countsGet mentionCounts possessiveForm).getD 0 }]
            evidence := { group.evidence with hasPossessive := true } },
         assigned ++ [possessiveForm])
      else (group, assigned)
    { groups := st.groups ++ [group], assigned := assigned }

/-- `firstAppearances[form]` lookup. -/
def faGet (fas : List (String × Appearance)) (k : String) : Option Appearance :=
  (fas.find? (fun p => p.1 == k)).map (fun p => p.2)

/-- Earliest first appearance across a group's variants, ordered by chapter,
then paragraph. -/
def earliestAppearance (fas : List (String × Appearance)) (variants : List GroupVariant) :
    Option Appearance :=
  variants.foldl
    (fun earliest v =>
      match faGet fas v.form with
      | some appearance =>
        match earliest with
        | none => some appearance
        | some e =>
          if appearance.chapter < e.chapter ||
              (appearance.chapter == e.chapter && appearance.paragraph < e.paragraph) then
            some appearance
          else earliest
      | none => earliest)
    none

/-- Final pass of `buildEntityGroups` over one group: attach first appearance
(defaulting to chapter 0, paragraph 0) and `totalMentions` (the sum of the
variants' counts). -/
def finalizeGroup (fas : List (String × Appearance)) (rg : RawGroup) : EntityGroup :=
  { canonicalName := rg.canonicalName
    variants := rg.variants
    evidence := rg.evidence
    firstAppearance := (earliestAppearance fas rg.variants).getD { chapter := 0, paragraph := 0 }
    totalMentions := (rg.variants.map (fun v => v.count)).sum }

/-- Comparator model of `(a, b) => b.totalMentions - a.totalMentions`. -/
def totalMentionsDescPre (a b : EntityGroup) : Bool :=
  b.totalMentions ≤ a.totalMentions

/-- `buildEntityGroups(forms, mentionCounts, firstAppearances)` from
`group-variants.js`: the three linkage priorities, then the finalisation
pass, then the descending stable sort by total mentions. -/
def buildEntityGroups (forms : CategorizedForms) (mentionCounts : Counts)
    (firstAppearances : List (String × Appearance)) : List EntityGroup :=
  let st : BuildState := { groups := [], assigned := [] }
  let st := forms.fullNames.foldl (fullNameStep forms mentionCounts) st
  let st := forms.titledNames.foldl (titledStep forms mentionCounts) st
  let st := forms.singleNames.foldl (singleStep mentionCounts) st
  stableSortBy totalMentionsDescPre (st.groups.map (finalizeGroup firstAppearances))

/-- Aggregate metadata of an extraction result. -/
structure Metadata where
  totalMentions : Nat
  uniqueForms : Nat
  chaptersProcessed : Nat
deriving DecidableEq, Repr

/-- Output shape of `extractProperNouns`. -/
structure ExtractionResult where
  mentions : List Mention
  mentionCounts : Counts
  possessiveCounts : Counts
  sentenceStartCounts : Counts
  firstAppearances : List (String × Appearance)
  metadata : Metadata
deriving DecidableEq, Repr

/-- `groupVariants(extractionResult, options)` from `group-variants.js`
(`minMentions` defaults to 5 in the source). -/
def groupVariants (extractionResult : ExtractionResult) (minMentions : Nat := 5) : List EntityGroup :=
  let forms := categorizeFormsFromMentions extractionResult.mentions extractionResult.mentionCounts
  let entityGroups := buildEntityGroups forms extractionResult.mentionCounts
    extractionResult.firstAppearances
  entityGroups.filter (fun group =>
    minMentions ≤ (group.variants.map (fun v => v.count)).sum)

/-- Lower-case ASCII letter or digit, the character class kept by
`generateEntityId` after lowercasing. -/
def isLowerAlnum (c : Char) : Bool :=
  ('a' ≤ c && c ≤ 'z') || ('0' ≤ c && c ≤ '9')

/-- `.replace(/[^a-z0-9]+/g, '_')`: collapse each maximal run of other
characters into a single underscore. -/
def collapseNonAlnum : Bool → List Char → List Char
  | _, [] => []
  | inRun, c :: cs =>
    if isLowerAlnum c then c :: collapseNonAlnum false cs
    else if inRun then collapseNonAlnum true cs
    else '_' :: collapseNonAlnum true cs

/-- `generateEntityId(canonicalName)` from `group-variants.js` /
`tier-entities.js`: lowercase, collapse non-alphanumeric runs to `_`, trim
one leading and one trailing `_`. -/
def generateEntityId (canonicalName : String) : String :=
  let collapsed := collapseNonAlnum false (canonicalName.data.map Char.toLower)
  let collapsed :=
    match collapsed with
    | '_' :: rest => rest
    | l => l
  let collapsed :=
    match collapsed.reverse with
    | '_' :: rest => rest.reverse
    | _ => collapsed
  ⟨collapsed⟩

/-- JS `\w`: ASCII letter, digit or underscore. -/
def isWordChar (c : Char) : Bool :=
  ('A' ≤ c && c ≤ 'Z') || ('a' ≤ c && c ≤ 'z') || ('0' ≤ c && c ≤ '9') || c == '_'

/-- Case-insensitive character comparison (the `i` regex flag; ASCII case
folding, which covers the corpus). -/
def ciCharEq (a b : Char) : Bool :=
  a.toLower == b.toLower

/-- Elements of the three concrete regexes `detect-list-separation` builds:
case-insensitive literals (the escaped words), an ordered two-way
alternation, `\s*`, `\s+` and `,?`. -/
inductive PatElem where
  | lit (s : List Char)
  | alt (a b : List Char)
  | ws0
  | ws1
  | optComma
deriving DecidableEq, Repr

/-- Word-boundary test `\b` between a previous character and the rest of the
input (no character counts as a non-word character). -/
def wordBoundaryAt (last : Option Char) (cs : List Char) : Bool :=
  (match last with | some c => isWordChar c | none => false) !=
    (match cs with | c :: _ => isWordChar c | [] => false)

/-- Consume a case-insensitive literal, tracking the last consumed input
character. -/
def matchLitLast : List Char → Option Char → List Char → Option (Option Char × List Char)
  | [], last, cs => some (last, cs)
  | p :: ps, _, c :: cs => if ciCharEq p c then matchLitLast ps (some c) cs else none
  | _ :: _, _, [] => none

/-- Candidate states after `\s*`, greedy order (longest consumption first). -/
def wsCandidates (last : Option Char) (cs : List Char) : List (Option Char × List Char) :=
  match cs with
  | c :: rest =>
    if c.isWhitespace then wsCandidates (some c) rest ++ [(last, cs)] else [(last, cs)]
  | [] => [(last, [])]

/-- Candidate states after `\s+`: at least one whitespace character. -/
def ws1Candidates (_last : Option Char) (cs : List Char) : List (Option Char × List Char) :=
  match cs with
  | c :: rest => if c.isWhitespace then wsCandidates (some c) rest else []
  | [] => []

/-- Candidate states after `,?`, greedy order (comma taken first). -/
def optCommaCandidates (last : Option Char) (cs : List Char) : List (Option Char × List Char) :=
  match cs with
  | ',' :: rest => [(some ',', rest), (last, cs)]
  | _ => [(last, cs)]

/-- First success over a candidate list: regex backtracking order. -/
def firstSome : List α → (α → Option β) → Option β
  | [], _ => none
  | x :: xs, f =>
    match f x with
    | some b => some b
    | none => firstSome xs f

/-- Match a pattern-element sequence at the current position with
backtracking in regex preference order; `endB` demands a trailing `\b`.
Returns the state after the chosen (leftmost-greedy) match. -/
def matchSeq (endB : Bool) : List PatElem → Option Char → List Char → Option (Option Char × List Char)
  | [], last, cs =>
    if endB then (if wordBoundaryAt last cs then some (last, cs) else none)
    else some (last, cs)
  | PatElem.lit p :: es, last, cs =>
    match matchLitLast p last cs with
    | some lr => matchSeq endB es lr.1 lr.2
    | none => none
  | PatElem.alt a b :: es, last, cs =>
    (match matchLitLast a last cs with
     | some lr => matchSeq endB es lr.1 lr.2
     | none => none).orElse
      (fun _ =>
        match matchLitLast b last cs with
        | some lr => matchSeq endB es lr.1 lr.2
        | none => none)
  | PatElem.ws0 :: es, last, cs =>
    firstSome (wsCandidates last cs) (fun lr => matchSeq endB es lr.1 lr.2)
  | PatElem.ws1 :: es, last, cs =>
    firstSome (ws1Candidates last cs) (fun lr => matchSeq endB es lr.1 lr.2)
  | PatElem.optComma :: es, last, cs =>
    firstSome (optCommaCandidates last cs) (fun lr => matchSeq endB es lr.1 lr.2)

/-- One of the concrete anchored patterns: optional leading `\b`, the element
sequence, optional trailing `\b`. -/
structure RegexPat where
  startB : Bool
  elems : List PatElem
  endB : Bool
deriving DecidableEq, Repr

/-- Global scan counting non-overlapping matches left to right, resuming
after each match (`lastIndex` semantics, advancing one character past an
empty match). `fuel` only bounds the recursion; `countPattern` supplies
enough for the whole input. -/
def countScanAux (p : RegexPat) : Nat → Option Char → List Char → Nat
  | 0, _, _ => 0
  | Nat.succ fuel, last, cs =>
    let attempt : Option (Option Char × List Char) :=
      if p.startB && !(wordBoundaryAt last cs) then none
      else matchSeq p.endB p.elems last cs
    match attempt with
    | some lr =>
      if lr.2.length < cs.length then 1 + countScanAux p fuel lr.1 lr.2
      else
        match cs with
        | [] => 1
        | c :: rest => 1 + countScanAux p fuel (some c) rest
    | none =>
      match cs with
      | [] => 0
      | c :: rest => countScanAux p fuel (some c) rest

/-- `countPattern(text, pattern)` from `filter-junk.js`: the number of
matches of the global regex in the text. -/
def countPattern (text : String) (p : RegexPat) : Nat :=
  countScanAux p (text.data.length + 1) none text.data

/-- Regex `\b<fullName>\b` (the name's characters taken literally, as after
`escapeRegex`). -/
def fullNamePat (fullName : String) : RegexPat :=
  { startB := true, elems := [PatElem.lit fullName.data], endB := true }

/-- Regex `\b<w1>\s*,?\s+(and|or)\s+<w2>\b`. -/
def andPat (w1 w2 : String) : RegexPat :=
  { startB := true
    elems := [PatElem.lit w1.data, PatElem.ws0, PatElem.optComma, PatElem.ws1,
      PatElem.alt "and".data "or".data, PatElem.ws1, PatElem.lit w2.data]
    endB := true }

/-- Regex `\b<w1>\s*,\s*<w2>\s*,` (no trailing `\b` in the source). -/
def commaListPat (w1 w2 : String) : RegexPat :=
  { startB := true
    elems := [PatElem.lit w1.data, PatElem.ws0, PatElem.lit ",".data, PatElem.ws0,
      PatElem.lit w2.data, PatElem.ws0, PatElem.lit ",".data]
    endB := false }

/-- Result of `detectListSeparation`. -/
structure ListSepResult where
  isListSeparated : Bool
  evidence : Option String := none
deriving DecidableEq, Repr

/-- `detectListSeparation(fullName, words, fullText)` from `filter-junk.js`. -/
def detectListSeparation (fullName w1 w2 : String) (fullText : String) : ListSepResult :=
  let fullNameCount := countPattern fullText (fullNamePat fullName)
  let andPatternCount := countPattern fullText (andPat w1 w2)
  let commaListCount := countPattern fullText (commaListPat w1 w2)
  if 3 ≤ andPatternCount ∧ fullNameCount < andPatternCount then
    { isListSeparated := true
      evidence := some ("\"" ++ w1 ++ " and " ++ w2 ++ "\" pattern appears " ++
        toString andPatternCount ++ " times vs \"" ++ fullName ++ "\" " ++
        toString fullNameCount ++ " times") }
  else if 3 ≤ commaListCount ∧ fullNameCount < commaListCount then
    { isListSeparated := true
      evidence := some ("\"" ++ w1 ++ ", " ++ w2 ++ ",\" list pattern appears " ++
        toString commaListCount ++ " times") }
  else { isListSeparated := false }

/-- `Math.round(100 * ss / total)` in exact integer arithmetic (0 when the
group has no mentions, where the JS ratio is set to 0). The doubles the JS
computes are exact or rounded identically for every count the pipeline
produces. -/
def round0Pct (ss total : Nat) : Nat :=
  if 0 < total then (200 * ss + total) / (2 * total) else 0

/-- `Math.round((ss / total) * 100) / 100`, the `sentenceStartRatio` field
value, as an exact rational. -/
def round2Ratio (ss total : Nat) : Rat :=
  mkRat (round0Pct ss total) 100

/-- Summed sentence-start count across a group's variants
(`sentenceStartCounts[variant.form] || 0`). -/
def getSentenceStartCount (group : EntityGroup) (sentenceStartCounts : Counts) : Nat :=
  (group.variants.map (fun v => (countsGet sentenceStartCounts v.form).getD 0)).sum

/-- Map of first words of two-word canonical names to the number of OTHER
two-word groups sharing that first word. -/
def buildTwoWordFirstWordMap (entityGroups : List EntityGroup) : Counts :=
  let firstWordCounts := entityGroups.foldl
    (fun m group =>
      match splitWs group.canonicalName with
      | [w1, _] => alIncrBy m w1 1
      | _ => m)
    []
  firstWordCounts.map (fun p => (p.1, p.2 - 1))

/-- An exclusion record as returned by `checkForExclusion`. -/
structure Exclusion where
  reason : String
  evidence : String
  sentenceStartRatio : Rat
deriving DecidableEq, Repr

/-- `checkForExclusion(group, ...)` from `filter-junk.js`: the four junk
heuristics in order, first match wins. The sentence-start ratio
`ssCount / totalMentions` is computed in exact rational arithmetic (see
`round2`). -/
def checkForExclusion (group : EntityGroup) (sentenceStartCounts : Counts)
    (mentionCounts : Counts) (twoWordFirstWords : Counts) (fullText : String) :
    Option Exclusion :=
  let name := group.canonicalName
  let totalMentions := group.totalMentions
  let ssCount := getSentenceStartCount group sentenceStartCounts
  if (0 < totalMentions ∧ totalMentions < 2 * ssCount) ∧ 5 ≤ totalMentions then
    some { reason := "sentence_start_ratio_high"
           evidence := toString (round0Pct ssCount totalMentions) ++ "% of mentions at sentence start"
           sentenceStartRatio := round2Ratio ssCount totalMentions }
  else
    match splitWs name with
    | [w1, w2] =>
      let otherTwoWordCount := (countsGet twoWordFirstWords w1).getD 0
      if 3 ≤ otherTwoWordCount then
        some { reason := "truncated_phrase"
               evidence := "\"" ++ w1 ++ "\" appears as first word in " ++
                 toString (otherTwoWordCount + 1) ++ " two-word entities"
               sentenceStartRatio := round2Ratio ssCount totalMentions }
      else
        let listSep : Option Exclusion :=
          if totalMentions < 10 then
            let ls := detectListSeparation name w1 w2 fullText
            if ls.isListSeparated then
              some { reason := "list_separated_names"
                     evidence := ls.evidence.getD ""
                     sentenceStartRatio := round2Ratio ssCount totalMentions }
            else none
          else none
        match listSep with
        | some e => some e
        | none =>
          if totalMentions < 30 then
            let word1Count := (countsGet mentionCounts w1).getD 0
            let word2Count := (countsGet mentionCounts w2).getD 0
            if 40 ≤ word1Count ∧ 40 ≤ word2Count then
              some { reason := "both_words_high_frequency"
                     evidence := "Both \"" ++ w1 ++ "\" (" ++ toString word1Count ++
                       ") and \"" ++ w2 ++ "\" (" ++ toString word2Count ++
                       ") are high-frequency standalone entities"
                     sentenceStartRatio := round2Ratio ssCount totalMentions }
            else none
          else none
    | _ => none

/-- An entry of the `excluded` output list of `filterJunk`. -/
structure ExcludedRecord where
  text : String
  mentions : Nat
  reason : String
  evidence : String
  sentenceStartRatio : Rat
deriving DecidableEq, Repr

/-- Output of `filterJunk`. -/
structure FilterResult where
  clean : List EntityGroup
  excluded : List ExcludedRecord
deriving DecidableEq, Repr

/-- `filterJunk(entityGroups, extractionResult, fullText, options)` from
`filter-junk.js`. -/
def filterJunk (entityGroups : List EntityGroup) (extractionResult : ExtractionResult)
    (fullText : String) : FilterResult :=
  let sentenceStartCounts := extractionResult.sentenceStartCounts
  let mentionCounts := extractionResult.mentionCounts
  let twoWordFirstWords := buildTwoWordFirstWordMap entityGroups
  entityGroups.foldl
    (fun acc group =>
      match checkForExclusion group sentenceStartCounts mentionCounts twoWordFirstWords fullText with
      | some exclusion =>
        { acc with excluded := acc.excluded ++
            [{ text := group.canonicalName
               mentions := group.totalMentions
               reason := exclusion.reason
               evidence := exclusion.evidence
               sentenceStartRatio := exclusion.sentenceStartRatio }] }
      | none =>
        let ratio := round2Ratio (getSentenceStartCount group sentenceStartCounts)
          group.totalMentions
        { acc with clean := acc.clean ++ [{ group with sentenceStartRatio := some ratio }] })
    { clean := [], excluded := [] }

/-- The title alternation of the two disqualification regexes in
`checkTier1Qualification`. -/
def disqualifyTitles : List String :=
  ["Mr", "Mrs", "Ms", "Miss", "Madam", "Uncle", "Aunt", "Sir", "Lord", "Lady", "Professor", "Dr"]

/-- Strip one trailing period (`.replace(/\.$/, '')`). -/
def stripTrailingDot (s : String) : String :=
  match s.data.reverse with
  | '.' :: rest => ⟨rest.reverse⟩
  | _ => s

/-- Test of `/^(Mr|Mrs|Ms|Miss|Madam|Uncle|Aunt|Sir|Lord|Lady|Professor|Dr)\.?$/i`:
the whole name is one of the title words, optionally followed by a period,
case-insensitively. -/
def isBareTitleName (name : String) : Bool :=
  disqualifyTitles.any (fun t =>
    strToLower name == strToLower t || strToLower name == strToLower t ++ ".")

/-- Consume a case-insensitive literal prefix. -/
def dropCI : List Char → List Char → Option (List Char)
  | [], cs => some cs
  | p :: ps, c :: cs => if ciCharEq p c then dropCI ps cs else none
  | _ :: _, _ => none

/-- ASCII letter: what `[A-Z]` under the `i` flag matches on the corpus. -/
def isAsciiLetter (c : Char) : Bool :=
  ('A' ≤ c && c ≤ 'Z') || ('a' ≤ c && c ≤ 'z')

/-- Test of `/^(...)\.?\s+[A-Z]$/i`: a title word, an optional period, one or
more whitespace characters, then exactly one letter. -/
def isTitleLetterName (name : String) : Bool :=
  disqualifyTitles.any (fun t =>
    match dropCI t.data name.data with
    | none => false
    | some rest =>
      let rest := match rest with
        | '.' :: r => r
        | r => r
      let afterWs := rest.dropWhile Char.isWhitespace
      decide (afterWs.length < rest.length) &&
        (match afterWs with
         | [c] => isAsciiLetter c
         | _ => false))

/-- `possessives`-style string-map setter for `Nat` values (`Map.set`). -/
def alSetNat (m : Counts) (k : String) (v : Nat) : Counts :=
  if m.any (fun p => p.1 == k) then
    m.map (fun p => if p.1 == k then (p.1, v) else p)
  else m ++ [(k, v)]

/-- `buildSingleWordCounts(groups, mentionCounts)` from `tier-entities.js`:
single-word canonical names mapped to their group's total mentions. -/
def buildSingleWordCounts (groups : List EntityGroup) : Counts :=
  groups.foldl
    (fun m group =>
      if (splitWs group.canonicalName).length = 1 then
        alSetNat m group.canonicalName group.totalMentions
      else m)
    []

/-- `checkTier1Qualification(group, ...)` from `tier-entities.js`: the two
disqualification regexes, then the four qualification checks in order.
Returns the qualification reason. (The `mentionCounts` argument is unused in
the source's body as well.) -/
def checkTier1Qualification (titlePrefixes : List String) (group : EntityGroup)
    (singleWordCounts : Counts) (_mentionCounts : Counts) (possessiveCounts : Counts)
    (minPossessive minMentions minPartMentions : Nat) : Option String :=
  let name := group.canonicalName
  let words := splitWs name
  if isBareTitleName name then none
  else if isTitleLetterName name then none
  else if 0 < group.evidence.titlePatterns.length || group.evidence.isTitledName then
    some "title_pattern"
  else if 1 ≤ words.length &&
      titlePrefixes.contains (stripTrailingDot (strToLower (words.headD ""))) then
    some "title_pattern"
  else
    let check2 : Option String :=
      match words with
      | [w1, w2] =>
        if minPartMentions ≤ (countsGet singleWordCounts w1).getD 0 ∧
            minPartMentions ≤ (countsGet singleWordCounts w2).getD 0 then
          some "full_name_both_parts_independent"
        else none
      | _ => none
    match check2 with
    | some r => some r
    | none =>
      let check3 : Option String :=
        if words.length = 1 ∧ minMentions ≤ group.totalMentions ∧
            minPossessive ≤ (countsGet possessiveCounts name).getD 0 then
          some "single_name_with_possessive"
        else none
      match check3 with
      | some r => some r
      | none =>
        if words.length = 2 then
          if group.variants.any (fun v =>
              (splitWs v.form).length = 1 && decide (minMentions ≤ v.count) &&
                decide (minPossessive ≤ (countsGet possessiveCounts v.form).getD 0)) then
            some "variant_with_possessive"
          else none
        else none

/-- `generateCandidateNotes(group)` from `tier-entities.js`. The possessive
test checks both the straight and the right-curly apostrophe; the plural test
only the straight one, as in the source. -/
def generateCandidateNotes (group : EntityGroup) : String :=
  let words := splitWs group.canonicalName
  let notes : List String :=
    if words.length = 1 then
      let hasPossessive := group.variants.any (fun v =>
        strEndsWith v.form "'s" || strEndsWith v.form "’s")
      (if hasPossessive then ["Has possessive form"] else ["No possessive form"]) ++
        (if 50 ≤ group.totalMentions then ["High frequency single word"] else [])
    else [toString words.length ++ "-word name"]
  let notes := notes ++
    (if group.variants.any (fun v =>
        strEndsWith v.form "s" && !(strEndsWith v.form "'s") && v.form != group.canonicalName) then
      ["Has plural form"]
    else [])
  let joined := String.intercalate ", " notes
  if joined == "" then "Needs review" else joined

/-- Options of `tierEntities`, with the source's defaults. -/
structure TierOptions where
  minCandidateMentions : Nat := 8
  minPossessiveForConfirm : Nat := 5
  minMentionsForPossessiveConfirm : Nat := 20
  minIndependentPartMentions : Nat := 10
deriving DecidableEq, Repr

/-- Output of `tierEntities`. -/
structure TierResult where
  confirmedCharacters : List Entity
  candidates : List Entity
deriving DecidableEq, Repr

/-- `tierEntities(cleanGroups, extractionResult, options)` from
`tier-entities.js`. `titlePrefixes` is the lowercased title-pattern lookup
table loaded from `config/title-patterns.json` at module load (the
configuration file is not part of the sources; it is passed as a
parameter). Candidate records' `sentenceStartRatio` is
`group.sentenceStartRatio || 0`. -/
def tierEntities (titlePrefixes : List String) (cleanGroups : List EntityGroup)
    (extractionResult : ExtractionResult) (opts : TierOptions) : TierResult :=
  let mentionCounts := extractionResult.mentionCounts
  let possessiveCounts := extractionResult.possessiveCounts
  let singleWordCounts := buildSingleWordCounts cleanGroups
  let r := cleanGroups.foldl
    (fun (acc : TierResult) group =>
      match checkTier1Qualification titlePrefixes group singleWordCounts mentionCounts
          possessiveCounts opts.minPossessiveForConfirm opts.minMentionsForPossessiveConfirm
          opts.minIndependentPartMentions with
      | some reason =>
        { acc with confirmedCharacters := acc.confirmedCharacters ++
            [{ id := generateEntityId group.canonicalName
               canonicalName := group.canonicalName
               mentions := group.totalMentions
               variants := group.variants.map (fun v => { form := v.form, count := v.count })
               qualifiedBy := some reason
               firstAppearance := some group.firstAppearance }] }
      | none =>
        if opts.minCandidateMentions ≤ group.totalMentions then
          { acc with candidates := acc.candidates ++
              [{ id := generateEntityId group.canonicalName
                 canonicalName := group.canonicalName
                 mentions := group.totalMentions
                 variants := group.variants.map (fun v => { form := v.form, count := v.count })
                 notes := some (generateCandidateNotes group)
                 firstAppearance := some group.firstAppearance }] }
        else acc)
    { confirmedCharacters := [], candidates := [] }
  { confirmedCharacters := stableSortBy mentionsDescPre r.confirmedCharacters
    candidates := stableSortBy mentionsDescPre r.candidates }

/-- Sentence position of a snippet: a single `sentenceIndex` or, after a
merge, a `sentenceRange`. -/
inductive SentIdx where
  | idx (n : Nat)
  | range (lo hi : Nat)
deriving DecidableEq, Repr

/-- `snippet.location`. -/
structure SnipLocation where
  paragraphIndex : Nat
  sent : SentIdx
deriving DecidableEq, Repr

/-- `snippet.text` (the JS field `match` is a Lean keyword and is called
`matchText` here). -/
structure SnipText where
  before : String
  matchText : String
  after : String
deriving DecidableEq, Repr

/-- One `snippet.mentions` record. -/
structure MentionRecord where
  entity : String
  variant : String
  sentence : String
deriving DecidableEq, Repr

/-- A snippet as built by `extract-snippets.js` (the constant `book` field
is omitted). -/
structure Snippet where
  id : String
  chapter : Nat
  chapterTitle : String := ""
  location : SnipLocation
  text : SnipText
  entities : List String
  mentions : List MentionRecord
deriving DecidableEq, Repr

/-- `location.sentenceIndex`, or `location.sentenceRange[0]` for a merged
snippet. -/
def sentStart (s : Snippet) : Nat :=
  match s.location.sent with
  | SentIdx.idx n => n
  | SentIdx.range lo _ => lo

/-- `location.sentenceIndex`, or `location.sentenceRange[1]` for a merged
snippet. -/
def sentEnd (s : Snippet) : Nat :=
  match s.location.sent with
  | SentIdx.idx n => n
  | SentIdx.range _ hi => hi

/-- The abbreviation alternation of `splitIntoSentences`, in source order. -/
def abbrevAlternatives : List (List Char) :=
  ["Mr".data, "Mrs".data, "Ms".data, "Dr".data, "Prof".data, "Sr".data, "Jr".data,
   "St".data, "vs".data, "etc".data, "e.g".data, "i.e".data]

/-- Does `pat` case-insensitively match a prefix of `cs`? -/
def ciMatchesAt (pat cs : List Char) : Bool :=
  match dropCI pat cs with
  | some _ => true
  | none => false

/-- `match.replace('.', '\x00')`: protect the first period of the matched
abbreviation text. -/
def replaceFirstDot : List Char → List Char
  | [] => []
  | '.' :: rest => '\x00' :: rest
  | c :: rest => c :: replaceFirstDot rest

/-- The global replace of `/(?:Mr|Mrs|Ms|Dr|Prof|Sr|Jr|St|vs|etc|e\.g|i\.e)\./gi`:
scan left to right; at each position the first alternative that is followed
by a period matches, and the match's first period becomes `\x00`. -/
def protectAbbrevs : Nat → List Char → List Char
  | 0, cs => cs
  | Nat.succ fuel, cs =>
    match cs with
    | [] => []
    | c :: rest =>
      match abbrevAlternatives.find? (fun a =>
          ciMatchesAt a cs && (cs.drop a.length).head? == some '.') with
      | some a =>
        replaceFirstDot (cs.take (a.length + 1)) ++ protectAbbrevs fuel (cs.drop (a.length + 1))
      | none => c :: protectAbbrevs fuel rest

/-- Split the protected text at `(?<=[.!?])\s+`: each maximal whitespace run
preceded by a sentence-ending character separates two pieces. -/
def splitAfterPunct (prev : Option Char) : Nat → List Char → List Char → List (List Char)
  | _, [], acc => [acc.reverse]
  | 0, cs, acc => [acc.reverse ++ cs]
  | Nat.succ fuel, c :: cs, acc =>
    if c.isWhitespace &&
        (match prev with
         | some p => p == '.' || p == '!' || p == '?'
         | none => false) then
      acc.reverse :: splitAfterPunct (some c) fuel (cs.dropWhile Char.isWhitespace) []
    else
      splitAfterPunct (some c) fuel cs (c :: acc)

/-- `splitIntoSentences(text)` from `dedupe-snippets.js`. -/
def splitIntoSentences (text : String) : List String :=
  if strTrim text == "" then []
  else
    let protectedChars := protectAbbrevs text.data.length text.data
    let pieces := splitAfterPunct none protectedChars.length protectedChars []
    (pieces.map (fun p =>
        strTrim (String.mk (p.map (fun c => if c == '\x00' then '.' else c))))).filter
      (fun s => 0 < s.length)

/-- `combineText(...texts)` from `dedupe-snippets.js`: split every non-empty
segment into sentences, keep each sentence's first occurrence, join with a
space. -/
def combineText (texts : List String) : String :=
  let nonEmpty := texts.filter (fun t => 0 < (strTrim t).length)
  let result := nonEmpty.foldl
    (fun (result : List String) text =>
      (splitIntoSentences text).foldl
        (fun result sentence =>
          if result.contains sentence then result else result ++ [sentence])
        result)
    []
  String.intercalate " " result

/-- `[...new Set(l)]`: deduplicate keeping first occurrences. -/
def dedupePreserve (l : List String) : List String :=
  l.foldl (fun acc x => if acc.contains x then acc else acc ++ [x]) []

/-- `mergeSnippets(a, b)` from `dedupe-snippets.js`. -/
def mergeSnippets (a b : Snippet) : Snippet :=
  let startSent := sentStart a
  let endSent := sentEnd b
  { a with
    text :=
      { before := a.text.before
        matchText := combineText [a.text.matchText, a.text.after, b.text.before, b.text.matchText]
        after := b.text.after }
    entities := dedupePreserve (a.entities ++ b.entities)
    mentions := a.mentions ++ b.mentions
    location := { paragraphIndex := a.location.paragraphIndex
                  sent := SentIdx.range startSent endSent } }

/-- Append `x` to the bucket of key `k`, creating the bucket at the end on a
fresh key: the observable behaviour of `groupBy`'s object and of the index
objects of `build-indices.js` (string keys in insertion order). -/
def addToBucket [DecidableEq κ] (k : κ) (x : α) :
    List (κ × List α) → List (κ × List α)
  | [] => [(k, [x])]
  | (k', g) :: rest =>
    if k' = k then (k', g ++ [x]) :: rest else (k', g) :: addToBucket k x rest

/-- `groupBy(snippets, s => chapter_paragraphIndex)` key. The JS key is the
string `c + "_" + p`, which separates pairs exactly as the pair does. -/
def snippetKey (s : Snippet) : Nat × Nat :=
  (s.chapter, s.location.paragraphIndex)

/-- `groupBy` from `dedupe-snippets.js`, specialised to the one key in use. -/
def groupBySnippets (snippets : List Snippet) : List ((Nat × Nat) × List Snippet) :=
  snippets.foldl (fun groups s => addToBucket (snippetKey s) s groups) []

/-- Comparator model of the in-group sort `(a, b) => aIdx - bIdx` on start
sentence indices. -/
def bySentStartPre (a b : Snippet) : Bool :=
  sentStart a ≤ sentStart b

/-- The merge fold inside one group of `dedupeSnippets`: walk the sorted
group, merging while the sentence gap is at most 2. -/
def processGroup : Snippet → List Snippet → List Snippet
  | cur, [] => [cur]
  | cur, nxt :: rest =>
    let gap : Int := (sentStart nxt : Int) - (sentEnd cur : Int)
    if gap ≤ 2 then processGroup (mergeSnippets cur nxt) rest
    else cur :: processGroup nxt rest

/-- Comparator model of the final document-order sort: by chapter, then
paragraph, then start sentence. -/
def docOrderPre (a b : Snippet) : Bool :=
  if a.chapter ≠ b.chapter then a.chapter ≤ b.chapter
  else if a.location.paragraphIndex ≠ b.location.paragraphIndex then
    a.location.paragraphIndex ≤ b.location.paragraphIndex
  else sentStart a ≤ sentStart b

/-- `String(i).padStart(4, '0')` with the `s_` id scheme. -/
def padId (i : Nat) : String :=
  let r := toString i
  String.mk (List.replicate (4 - r.length) '0') ++ r

/-- The final re-numbering of `dedupeSnippets`: sequential zero-padded ids in
list order. -/
def reassignIds (l : List Snippet) : List Snippet :=
  l.enum.map (fun p => { p.2 with id := "s_" ++ padId p.1 })

/-- One group's contribution to `deduped`: sort the group by sentence index
and run the gap-2 merge walk. -/
def dedupeGroupStep (acc : List Snippet) (kg : (Nat × Nat) × List Snippet) :
    List Snippet :=
  match stableSortBy bySentStartPre kg.2 with
  | [] => acc
  | first :: rest => acc ++ processGroup first rest

/-- `dedupeSnippets(snippets)` from `dedupe-snippets.js`: group by
chapter/paragraph, sort each group by sentence index, merge snippets at gap
at most 2, re-sort globally in document order, re-assign sequential ids. -/
def dedupeSnippets (snippets : List Snippet) : List Snippet :=
  match snippets with
  | [] => []
  | _ =>
    let groups := groupBySnippets snippets
    let deduped := groups.foldl dedupeGroupStep []
    reassignIds (stableSortBy docOrderPre deduped)

/-- The sentence-gap condition under which `processGroup` does not merge two
consecutive snippets: `nextStart - currentEnd > 2`. -/
abbrev snipGapGT (a b : Snippet) : Prop :=
  sentEnd a + 2 < sentStart b

/-- Comparator model of JS default `Array.prototype.sort()` on strings
(lexicographic by code unit; the ids and entity ids in play are ASCII). -/
def strPre (a b : String) : Bool :=
  strLeb a b

/-- All ordered pairs `(l[i], l[j])` with `i < j`, in the double-loop order
of `buildCooccurrenceIndex`. -/
def pairsOf : List α → List (α × α)
  | [] => []
  | x :: rest => rest.map (fun y => (x, y)) ++ pairsOf rest

/-- The `(key, snippet id)` contributions of one snippet: its entity list
sorted, every `i < j` pair keyed `ei + "+" + ej`. -/
def snippetPairContribs (s : Snippet) : List (String × String) :=
  (pairsOf (stableSortBy strPre s.entities)).map (fun p => (p.1 ++ "+" ++ p.2, s.id))

/-- `buildCooccurrenceIndex(snippets)` from `build-indices.js`. -/
def buildCooccurrenceIndex (snippets : List Snippet) : List (String × List String) :=
  let index := snippets.foldl
    (fun idx s => (snippetPairContribs s).foldl (fun idx kv => addToBucket kv.1 kv.2 idx) idx)
    []
  index.map (fun p => (p.1, stableSortBy strPre p.2))

/-- Index lookup: the bucket of a key, `[]` when absent. -/
def bucketOf (idx : List (String × List String)) (k : String) : List String :=
  ((idx.find? (fun p => p.1 = k)).map (fun p => p.2)).getD []

/-- Normalize curly/modifier apostrophes (U+2018, U+2019, U+02BC) to the
straight apostrophe. -/
def normalizeApostrophes (s : String) : String :=
  String.mk (s.data.map (fun c =>
    if c == '‘' || c == '’' || c == 'ʼ' then '\'' else c))

/-- The extractor's module-level configuration, loaded in the source from
`config/stopwords.json` and `config/title-patterns.json` (files outside the
repository sources; passed as a parameter). `stopwordSet` and
`chapterPatterns` are the lowercase lookup sets; `titlePatternList` the
`(pattern, type)` pairs. -/
structure ExtractionConfig where
  stopwordSet : List String
  chapterPatterns : List String
  titlePatternList : List (String × Option String)
deriving DecidableEq, Repr

/-- `cleanToken(word)`: normalize apostrophes, strip leading/trailing
characters other than ASCII letters and apostrophes, then one trailing
period (a no-op after the strip, kept for fidelity). -/
def cleanToken (word : String) : String :=
  let cs := (normalizeApostrophes word).data
  let keep := fun c => isAsciiLetter c || c == '\''
  let cs := cs.dropWhile (fun c => !(keep c))
  let cs := (cs.reverse.dropWhile (fun c => !(keep c))).reverse
  let cs :=
    match cs.reverse with
    | '.' :: rest => rest.reverse
    | _ => cs
  String.mk cs

/-- `isContraction(word)`: apostrophe-`s` after a common pronoun, or one of
the contraction endings `'d 'm 'll 're 've 't` (case-insensitive). -/
def isContraction (word : String) : Bool :=
  if word == "" then false
  else
    let normalized := normalizeApostrophes word
    if strEndsWith (strToLower normalized) "'s" then
      let base := strToLower (stripPossessiveSuffix normalized)
      ["he", "she", "it", "that", "what", "who", "there", "here", "where"].contains base
    else
      ["'d", "'m", "'ll", "'re", "'ve", "'t"].any (fun suf =>
        strEndsWith (strToLower normalized) suf)

/-- `endsSentence(word)`: `/[.!?]["']?$/` on the raw word. -/
def endsSentence (word : String) : Bool :=
  match word.data.reverse with
  | [] => false
  | c :: rest =>
    if c == '.' || c == '!' || c == '?' then true
    else if c == '"' || c == '\'' then
      match rest with
      | p :: _ => p == '.' || p == '!' || p == '?'
      | [] => false
    else false

/-- `isCapitalized(word)`: the first character equals its uppercase form and
differs from its lowercase form. -/
def isCapitalized (word : String) : Bool :=
  match word.data with
  | [] => false
  | c :: _ => c.toUpper == c && c.toLower != c

/-- `isStopword(word)`: membership of the normalized or raw lowercased word
in the stopword set. -/
def isStopword (cfg : ExtractionConfig) (word : String) : Bool :=
  cfg.stopwordSet.contains (strToLower (normalizeApostrophes word)) ||
    cfg.stopwordSet.contains (strToLower word)

/-- Membership in the lowercased title-prefix set. -/
def titlePrefixesHas (cfg : ExtractionConfig) (w : String) : Bool :=
  cfg.titlePatternList.any (fun p => strToLower p.1 == w)

/-- Substring test (`String.prototype.includes`). -/
def containsSub (s sub : String) : Bool :=
  s.data.tails.any (fun t => sub.data.isPrefixOf t)

/-- Result of `extractProperNounSequence`; `delta` is
`endIndex - startIndex` (how many extra words beyond the first were
consumed). -/
structure SeqResult where
  form : String
  normalized : String
  isPossessive : Bool
  hasTitle : Bool
  titleType : Option String
  wordCount : Nat
  delta : Nat
deriving DecidableEq, Repr

/-- The common tail of `extractProperNounSequence`: join the components,
derive possessive flag and normalized form, reject chapter patterns and
short results. -/
def finishSeq (cfg : ExtractionConfig) (components : List String) (hasTitle : Bool)
    (titleType : Option String) (delta : Nat) : Option SeqResult :=
  if components.length = 0 then none
  else
    let form := String.intercalate " " components
    let isPossessive := containsSub form "'s"
    let normalized := stripTrailingDot (stripPossessiveSuffix form)
    if cfg.chapterPatterns.contains (strToLower normalized) then none
    else if normalized.length < 2 then none
    else some { form := form, normalized := normalized, isPossessive := isPossessive,
                hasTitle := hasTitle, titleType := titleType,
                wordCount := components.length, delta := delta }

/-- `titleInfo?.type || 'honorific'`. -/
def titleTypeOf (cfg : ExtractionConfig) (firstWordLower : String) : Option String :=
  match cfg.titlePatternList.find? (fun p => strToLower p.1 == firstWordLower) with
  | some p =>
    (match p.2 with
     | some t => if t == "" then some "honorific" else some t
     | none => some "honorific")
  | none => some "honorific"

/-- `extractProperNounSequence(words, startIndex)` from
`extract-proper-nouns.js`. A title prefix attaches at most one following
capitalized word; otherwise up to two consecutive capitalized non-stopword
words are collected, stopping after a possessive or before a word whose
predecessor ends a sentence. The untitled branch's loop is bounded by two
components and is unrolled here. -/
def extractProperNounSequence (cfg : ExtractionConfig) (words : List String)
    (startIndex : Nat) : Option SeqResult :=
  let firstRaw := words.getD startIndex ""
  let firstWord := cleanToken firstRaw
  let firstWordLower := stripTrailingDot (strToLower firstWord)
  if titlePrefixesHas cfg firstWordLower then
    let titleType := titleTypeOf cfg firstWordLower
    match words.get? (startIndex + 1) with
    | some nextRaw =>
      let nextWord := cleanToken nextRaw
      if nextWord != "" && isCapitalized nextWord && !isStopword cfg nextWord &&
          !isContraction nextRaw then
        finishSeq cfg [firstWord, nextWord] true titleType 1
      else finishSeq cfg [firstWord] true titleType 0
    | none => finishSeq cfg [firstWord] true titleType 0
  else
    if firstWord == "" then none
    else if isContraction firstRaw then none
    else
      let isPoss1 := containsSub firstRaw "'s" && !isContraction firstRaw
      let base1 := stripPossessiveSuffix firstWord
      if isCapitalized base1 && !isStopword cfg base1 then
        if isPoss1 then finishSeq cfg [base1 ++ "'s"] false none 0
        else
          match words.get? (startIndex + 1) with
          | none => finishSeq cfg [firstWord] false none 0
          | some raw2 =>
            let word2 := cleanToken raw2
            if word2 == "" then finishSeq cfg [firstWord] false none 0
            else if isContraction raw2 then finishSeq cfg [firstWord] false none 0
            else if endsSentence firstRaw then finishSeq cfg [firstWord] false none 0
            else
              let isPoss2 := containsSub raw2 "'s" && !isContraction raw2
              let base2 := stripPossessiveSuffix word2
              if isCapitalized base2 && !isStopword cfg base2 then
                if isPoss2 then finishSeq cfg [firstWord, base2 ++ "'s"] false none 1
                else finishSeq cfg [firstWord, word2] false none 1
              else finishSeq cfg [firstWord] false none 0
      else none

/-- A proper noun extracted from one line, with sentence-start flag. -/
structure LinePN where
  form : String
  normalized : String
  isPossessive : Bool
  hasTitle : Bool
  titleType : Option String
  isAtSentenceStart : Bool
deriving DecidableEq, Repr

/-- The word indices at sentence starts: index 0 and every index following a
word that ends a sentence. -/
def sentenceStartIndices (words : List String) : List Nat :=
  [0] ++ ((List.range (words.length - 1)).filter
    (fun j => endsSentence (words.getD j ""))).map (fun j => j + 1)

/-- The scanning loop of `extractFromLine`: skip contractions, empty and
stopword tokens; at a capitalized token extract a sequence and resume after
its end. -/
def extractLoop (cfg : ExtractionConfig) (words : List String) (ssIdx : List Nat) :
    Nat → Nat → List LinePN
  | 0, _ => []
  | Nat.succ fuel, i =>
    if i < words.length then
      let word := words.getD i ""
      if isContraction word then extractLoop cfg words ssIdx fuel (i + 1)
      else
        let cleanWord := cleanToken word
        if cleanWord == "" || isStopword cfg cleanWord then
          extractLoop cfg words ssIdx fuel (i + 1)
        else if isCapitalized cleanWord then
          match extractProperNounSequence cfg words i with
          | some r =>
            { form := r.form, normalized := r.normalized, isPossessive := r.isPossessive,
              hasTitle := r.hasTitle, titleType := r.titleType,
              isAtSentenceStart := ssIdx.contains i } ::
              extractLoop cfg words ssIdx fuel (i + r.delta + 1)
          | none => extractLoop cfg words ssIdx fuel (i + 1)
        else extractLoop cfg words ssIdx fuel (i + 1)
    else []

/-- `extractFromLine(line)` from `extract-proper-nouns.js`. The loop index
strictly increases, so `words.length` steps of fuel cover the whole scan. -/
def extractFromLine (cfg : ExtractionConfig) (line : String) : List LinePN :=
  let words := (splitWs line).filter (fun w => 0 < w.length)
  extractLoop cfg words (sentenceStartIndices words) words.length 0

/-- Match of `/^##\s+CHAPTER\s+(\w+):\s*(.*)$/i` against a line, returning
the trimmed title on success. -/
def chapterHeaderMatch (line : String) : Option String :=
  match line.data with
  | '#' :: '#' :: rest =>
    let rest1 := rest.dropWhile Char.isWhitespace
    if rest1.length = rest.length then none
    else
      match dropCI "chapter".data rest1 with
      | none => none
      | some rest2 =>
        let rest3 := rest2.dropWhile Char.isWhitespace
        if rest3.length = rest2.length then none
        else
          let wordPart := rest3.takeWhile isWordChar
          if wordPart.length = 0 then none
          else
            match rest3.drop wordPart.length with
            | ':' :: rest4 =>
              some (strTrim (String.mk (rest4.dropWhile Char.isWhitespace)))
            | _ => none
  | _ => none

/-- Running state of the line loop of `extractProperNouns`. -/
structure ExtractState where
  inFrontmatter : Bool
  currentChapter : Nat
  chapterTitle : String
  paragraphIndex : Nat
  mentions : List Mention
  mentionCounts : Counts
  possessiveCounts : Counts
  sentenceStartCounts : Counts
  firstAppearances : List (String × Appearance)
deriving DecidableEq, Repr

/-- Record one extracted proper noun into the running state (the body of the
`for (const pn of lineProperNouns)` loop). -/
def recordMention (st : ExtractState) (lineIndex : Nat) (pn : LinePN) : ExtractState :=
  let mention : Mention :=
    { form := pn.form, normalized := pn.normalized, isPossessive := pn.isPossessive,
      hasTitle := pn.hasTitle, titleType := pn.titleType,
      isAtSentenceStart := pn.isAtSentenceStart,
      chapter := st.currentChapter, paragraph := st.paragraphIndex, line := lineIndex + 1 }
  { st with
    mentions := st.mentions ++ [mention]
    mentionCounts := alIncrBy st.mentionCounts pn.normalized 1
    possessiveCounts :=
      if pn.isPossessive then alIncrBy st.possessiveCounts pn.normalized 1
      else st.possessiveCounts
    sentenceStartCounts :=
      if pn.isAtSentenceStart then alIncrBy st.sentenceStartCounts pn.normalized 1
      else st.sentenceStartCounts
    firstAppearances :=
      if (faGet st.firstAppearances pn.normalized).isSome then st.firstAppearances
      else st.firstAppearances ++
        [(pn.normalized,
          { chapter := st.currentChapter, paragraph := st.paragraphIndex, form := pn.form })] }

/-- One line of the main loop of `extractProperNouns`: front-matter toggle,
chapter header, blank-line paragraph increment, or proper-noun extraction. -/
def extractLineStep (cfg : ExtractionConfig) (st : ExtractState) (p : Nat × String) :
    ExtractState :=
  let (lineIndex, line) := p
  if strTrim line == "---" then { st with inFrontmatter := !st.inFrontmatter }
  else if st.inFrontmatter then st
  else
    match chapterHeaderMatch line with
    | some title =>
      { st with currentChapter := st.currentChapter + 1, chapterTitle := title,
                paragraphIndex := 0 }
    | none =>
      if strTrim line == "" then { st with paragraphIndex := st.paragraphIndex + 1 }
      else (extractFromLine cfg line).foldl (fun st pn => recordMention st lineIndex pn) st

/-- `extractProperNouns(text, options)` from `extract-proper-nouns.js`. -/
def extractProperNouns (cfg : ExtractionConfig) (text : String) : ExtractionResult :=
  let lines := splitRetain '\n' text.data []
  let st := lines.enum.foldl (extractLineStep cfg)
    { inFrontmatter := false, currentChapter := 0, chapterTitle := "", paragraphIndex := 0,
      mentions := [], mentionCounts := [], possessiveCounts := [],
      sentenceStartCounts := [], firstAppearances := [] }
  { mentions := st.mentions
    mentionCounts := st.mentionCounts
    possessiveCounts := st.possessiveCounts
    sentenceStartCounts := st.sentenceStartCounts
    firstAppearances := st.firstAppearances
    metadata :=
      { totalMentions := st.mentions.length
        uniqueForms := st.mentionCounts.length
        chaptersProcessed := st.currentChapter } }

/-- The `Map` `applyMerges` builds from its input entity list. -/
def entityMapOf (entities : List Entity) : List Entity :=
  entities.foldl emSet []

/-- The entities a merge group's names resolve to against the initial map
(`group.map(name => entityMap.get(name)).filter(Boolean)`). -/
def resolveGroup (entities : List Entity) (group : List String) : List Entity :=
  group.filterMap (emGet (entityMapOf entities))

/-- The mention-count invariant of the data model: an entity's `mentions`
equals the sum of its variants' counts. -/
@[reducible] def mentionSumInv (e : Entity) : Prop :=
  e.mentions = (e.variants.map (fun v => v.count)).sum

/-- An entity's canonical name occurs among its variant forms (true of every
group the grouper builds; see `buildEntityGroups`). -/
@[reducible] def canonicalInVariants (e : Entity) : Prop :=
  e.canonicalName ∈ e.variants.map (fun v => v.form)

/-- Primary entity of the C4 failing input: first appearance chapter 2. -/
def c4Primary : Entity :=
  { id := "b", canonicalName := "B", mentions := 50,
    variants := [{ form := "B", count := 50 }],
    firstAppearance := some { chapter := 2, paragraph := 0, form := "B" } }

/-- Absorbed entity of the C4 failing input: strictly earlier first
appearance (chapter 1). -/
def c4Other : Entity :=
  { id := "a", canonicalName := "A", mentions := 10,
    variants := [{ form := "A", count := 10 }],
    firstAppearance := some { chapter := 1, paragraph := 0, form := "A" } }

/-! Concrete inputs used by witness theorems. -/

/-- C1 witness mention. -/
def c1Mention : Mention :=
  { form := "Harry", normalized := "Harry", isPossessive := false, hasTitle := false }

/-- C1 witness extraction result: three mentions of "Harry". -/
def c1Extraction : ExtractionResult :=
  { mentions := [c1Mention, c1Mention, c1Mention]
    mentionCounts := [("Harry", 3)]
    possessiveCounts := []
    sentenceStartCounts := []
    firstAppearances := [("Harry", { chapter := 1, paragraph := 0, form := "Harry" })]
    metadata := { totalMentions := 3, uniqueForms := 1, chaptersProcessed := 1 } }


/-- C3 witness entity: "Vernon", 50 mentions. -/
def c3Vernon : Entity :=
  { id := "vernon", canonicalName := "Vernon", mentions := 50,
    variants := [{ form := "Vernon", count := 50 }] }

/-- C3 witness entity: "Uncle Vernon", 10 mentions. -/
def c3UncleVernon : Entity :=
  { id := "uncle_vernon", canonicalName := "Uncle Vernon", mentions := 10,
    variants := [{ form := "Uncle Vernon", count := 10 }] }

/-- C3 witness entity: "Mr Dursley", 5 mentions. -/
def c3MrDursley : Entity :=
  { id := "mr_dursley", canonicalName := "Mr Dursley", mentions := 5,
    variants := [{ form := "Mr Dursley", count := 5 }] }

/-- C3 witness entity list. -/
def c3Entities : List Entity := [c3Vernon, c3UncleVernon, c3MrDursley]

/-- C3 witness merge group. -/
def c3Group : List String := ["Vernon", "Uncle Vernon", "Mr Dursley"]


/-- A `JSON.parse` stand-in that always throws (witness input). -/
def c2Parse : String → Except String ParsedResponse := fun _ => Except.error "boom"

/-- A one-entity confirmed list (witness input). -/
def c2Confirmed : List Entity :=
  [{ id := "harry", canonicalName := "Harry", mentions := 10,
     variants := [{ form := "Harry", count := 10 }] }]

/-- C6 witness group: a titled-evidence group with an ordinary name. -/
def c6Group : EntityGroup :=
  { canonicalName := "Dumbledore"
    variants := [{ form := "Dumbledore", count := 40 }]
    evidence := { isTitledName := true }
    firstAppearance := { chapter := 1, paragraph := 0 }
    totalMentions := 40 }

/-- C5 witness group: `{canonicalName: "Malfoy Crabbe", totalMentions: 2}`. -/
def c5Group : EntityGroup :=
  { canonicalName := "Malfoy Crabbe"
    variants := [{ form := "Malfoy Crabbe", count := 2 }]
    evidence := { isFullName := true }
    firstAppearance := { chapter := 1, paragraph := 0 }
    totalMentions := 2 }

/-- C5 witness text: "Malfoy, Crabbe, and Goyle" three times, no literal
"Malfoy Crabbe" bigram. -/
def c5Text : String :=
  "Malfoy, Crabbe, and Goyle sneered. Then Malfoy, Crabbe, and Goyle left. Later Malfoy, Crabbe, and Goyle returned."

/-- The lexicographically smaller of two strings (first component of a
co-occurrence key). -/
def strMin (a b : String) : String :=
  if strLeb a b then a else b

/-- The lexicographically larger of two strings (second component of a
co-occurrence key). -/
def strMax (a b : String) : String :=
  if strLeb a b then b else a

/-- C8 witness snippet: two entities. -/
def c8Snippet : Snippet :=
  { id := "s_0000", chapter := 1
    location := { paragraphIndex := 0, sent := SentIdx.idx 0 }
    text := { before := "", matchText := "Harry met Ron.", after := "" }
    entities := ["harry", "ron"]
    mentions := [{ entity := "harry", variant := "Harry", sentence := "match" },
                 { entity := "ron", variant := "Ron", sentence := "match" }] }

/-- C8 witness snippet: a second snippet with a single entity. -/
def c8Snippet2 : Snippet :=
  { id := "s_0001", chapter := 1
    location := { paragraphIndex := 1, sent := SentIdx.idx 0 }
    text := { before := "", matchText := "Harry left.", after := "" }
    entities := ["harry"]
    mentions := [{ entity := "harry", variant := "Harry", sentence := "match" }] }

/-- C7 witness snippet: paragraph 0, sentence 0. -/
def c7A : Snippet :=
  { id := "s_0007", chapter := 1
    location := { paragraphIndex := 0, sent := SentIdx.idx 0 }
    text := { before := "", matchText := "Hagrid knocked.", after := "" }
    entities := ["hagrid"]
    mentions := [{ entity := "hagrid", variant := "Hagrid", sentence := "match" }] }

/-- C7 witness snippet: same paragraph as `c7A`, five sentences later. -/
def c7B : Snippet :=
  { id := "s_0008", chapter := 1
    location := { paragraphIndex := 0, sent := SentIdx.idx 5 }
    text := { before := "", matchText := "Hagrid entered.", after := "" }
    entities := ["hagrid"]
    mentions := [{ entity := "hagrid", variant := "Hagrid", sentence := "match" }] }

/-- C7 witness snippet: a different paragraph. -/
def c7C : Snippet :=
  { id := "s_0009", chapter := 1
    location := { paragraphIndex := 3, sent := SentIdx.idx 1 }
    text := { before := "", matchText := "Dumbledore smiled.", after := "" }
    entities := ["dumbledore"]
    mentions := [{ entity := "dumbledore", variant := "Dumbledore", sentence := "match" }] }

/-- Structurally recursive decision procedure for `List.Chain'` (reduces in
the kernel, so concrete instances can be settled by `decide`). -/
instance chain'Decidable {R : α → α → Prop} [DecidableRel R] :
    ∀ (l : List α), Decidable (List.Chain' R l)
  | [] => isTrue List.chain'_nil
  | [a] => isTrue (List.chain'_singleton a)
  | a :: b :: t =>
    match chain'Decidable (b :: t) with
    | isTrue h =>
      if hr : R a b then isTrue (List.chain'_cons.mpr ⟨hr, h⟩)
      else isFalse (fun hc => hr (List.chain'_cons.mp hc).1)
    | isFalse h => isFalse (fun hc => h (List.chain'_cons.mp hc).2)

/-- Does the form carry the `'s` possessive suffix? -/
def endsPossessive (f : String) : Bool :=
  strEndsWith f "'s"

/-- The surface forms carried by a raw group's variants. -/
def groupForms (g : RawGroup) : List String :=
  g.variants.map (fun v => v.form)

/-- The `assignedForms` invariant: every assigned form is either a clean
(non-possessive) form or the possessive of an assigned clean form. -/
def AInv (assigned : List String) : Prop :=
  ∀ f ∈ assigned, endsPossessive f = false ∨
    ∃ b, f = b ++ "'s" ∧ b ∈ assigned ∧ endsPossessive b = false

/-- Invariant of a group under construction, relative to the `assignedForms`
set `base` that was current when its anchor was claimed: the group's forms
are duplicate-free, recorded in the running assigned set, and all new. -/
def GInv (base : List String) (ga : RawGroup × List String) : Prop :=
  (groupForms ga.1).Nodup ∧
  (∀ f ∈ groupForms ga.1, f ∈ ga.2) ∧
  AInv ga.2 ∧
  (∀ x ∈ base, x ∈ ga.2) ∧
  (∀ f ∈ groupForms ga.1, f ∉ base)

/-- Invariant of the running `buildEntityGroups` state: the forms across all
built groups are duplicate-free and all recorded in `assignedForms`. -/
def BInv (st : BuildState) : Prop :=
  ((st.groups.map groupForms).flatten).Nodup ∧
  (∀ f ∈ (st.groups.map groupForms).flatten, f ∈ st.assigned) ∧
  AInv st.assigned

/-- C9 witness categorised forms: one full name, two titled names, two
single names. -/
def c9Forms : CategorizedForms :=
  { fullNames := [{ form := "Harry Potter", count := 4 }]
    titledNames := [{ form := "Mr Potter", title := "Mr", name := "Potter", count := 2 },
                    { form := "Mrs Figg", title := "Mrs", name := "Figg", count := 3 }]
    singleNames := [{ form := "Harry", count := 6 }, { form := "Figg", count := 4 }]
    possessives := [] }

/-- C9 witness mention counts. -/
def c9Counts : Counts :=
  [("Harry Potter", 4), ("Harry", 10), ("Harry's", 2), ("Mr Potter", 2),
   ("Mrs Figg", 3), ("Figg", 4)]

/-- Sum of all values of a counts dictionary. -/
def countsSum (m : Counts) : Nat :=
  (m.map (fun p => p.2)).sum

/-- Internal consistency of the extractor state: mention-count keys are
duplicate-free, count values sum to the number of mentions, and every key of
the auxiliary dictionaries is a key of `mentionCounts`. -/
def extractInv (st : ExtractState) : Prop :=
  (st.mentionCounts.map (fun p => p.1)).Nodup ∧
  countsSum st.mentionCounts = st.mentions.length ∧
  (∀ k, (countsGet st.possessiveCounts k).isSome → (countsGet st.mentionCounts k).isSome) ∧
  (∀ k, (countsGet st.sentenceStartCounts k).isSome → (countsGet st.mentionCounts k).isSome) ∧
  (∀ k, (faGet st.firstAppearances k).isSome → (countsGet st.mentionCounts k).isSome)

/-! Generic lemmas about the stable sort model and association-list folds. -/

theorem stableInsert_perm (pre : α → α → Bool) (x : α) (l : List α) :
    List.Perm (stableInsert pre x l) (x :: l) := by
  induction l with
  | nil => simp [stableInsert]
  | cons y ys ih =>
    simp only [stableInsert]
    by_cases h : pre y x = true
    · simp only [h, if_true]
      exact (ih.cons y).trans (List.Perm.swap x y ys)
    · simp [h]

theorem stableSortBy_perm (pre : α → α → Bool) (l : List α) :
    List.Perm (stableSortBy pre l) l := by
  suffices h : ∀ (l acc : List α),
      List.Perm (l.foldl (fun acc x => stableInsert pre x acc) acc) (acc ++ l) by
    simpa using h l []
  intro l
  induction l with
  | nil => simp
  | cons x xs ih =>
    intro acc
    simp only [List.foldl_cons]
    refine (ih (stableInsert pre x acc)).trans ?_
    refine (List.Perm.append_right xs ((stableInsert_perm pre x acc))).trans ?_
    simpa using List.perm_middle.symm

theorem mem_stableSortBy {pre : α → α → Bool} {l : List α} {a : α} :
    a ∈ stableSortBy pre l ↔ a ∈ l :=
  (stableSortBy_perm pre l).mem_iff

theorem stableInsert_pairwise {pre : α → α → Bool}
    (htot : ∀ a b, pre a b = true ∨ pre b a = true)
    (htrans : ∀ a b c, pre a b = true → pre b c = true → pre a c = true)
    {x : α} {l : List α} (hl : l.Pairwise (fun a b => pre a b = true)) :
    (stableInsert pre x l).Pairwise (fun a b => pre a b = true) := by
  induction l with
  | nil => simp [stableInsert]
  | cons y ys ih =>
    rcases hl with _ | ⟨hy, hys⟩
    simp only [stableInsert]
    by_cases h : pre y x = true
    · simp only [h, if_true]
      refine List.Pairwise.cons ?_ (ih hys)
      intro z hz
      rcases List.mem_cons.mp ((stableInsert_perm pre x ys).mem_iff.mp hz) with rfl | hz
      · exact h
      · exact hy z hz
    · simp only [h, if_false]
      refine List.Pairwise.cons ?_ (List.Pairwise.cons hy hys)
      intro z hz
      have hxy : pre x y = true := (htot x y).resolve_right (fun hc => h hc)
      rcases List.mem_cons.mp hz with rfl | hz
      · exact hxy
      · exact htrans x y z hxy (hy z hz)

theorem stableSortBy_pairwise {pre : α → α → Bool}
    (htot : ∀ a b, pre a b = true ∨ pre b a = true)
    (htrans : ∀ a b c, pre a b = true → pre b c = true → pre a c = true)
    (l : List α) :
    (stableSortBy pre l).Pairwise (fun a b => pre a b = true) := by
  suffices h : ∀ (l acc : List α), acc.Pairwise (fun a b => pre a b = true) →
      (l.foldl (fun acc x => stableInsert pre x acc) acc).Pairwise
        (fun a b => pre a b = true) by
    exact h l [] List.Pairwise.nil
  intro l
  induction l with
  | nil => intro acc h; simpa using h
  | cons x xs ih =>
    intro acc h
    simp only [List.foldl_cons]
    exact ih _ (stableInsert_pairwise htot htrans h)

theorem pairwise_ne_or {R : α → α → Prop} {a b : α} :
    ∀ {l : List α}, l.Pairwise R → a ∈ l → b ∈ l → a ≠ b → R a b ∨ R b a := by
  intro l
  induction l with
  | nil => intro _ ha _ _; cases ha
  | cons x xs ih =>
    intro h ha hb hne
    rcases h with _ | ⟨hx, hxs⟩
    by_cases hax : a = x
    · subst hax
      have hbxs : b ∈ xs := by
        rcases List.mem_cons.mp hb with h' | h'
        · exact absurd h'.symm hne
        · exact h'
      exact Or.inl (hx b hbxs)
    · by_cases hbx : b = x
      · subst hbx
        have haxs : a ∈ xs := by
          rcases List.mem_cons.mp ha with h' | h'
          · exact absurd h' hax
          · exact h'
        exact Or.inr (hx a haxs)
      · have haxs : a ∈ xs := by
          rcases List.mem_cons.mp ha with h' | h'
          · exact absurd h' hax
          · exact h'
        have hbxs : b ∈ xs := by
          rcases List.mem_cons.mp hb with h' | h'
          · exact absurd h' hbx
          · exact h'
        exact ih hxs haxs hbxs hne

theorem perm_pairwise_eq {R : α → α → Prop} :
    ∀ {l₁ l₂ : List α}, List.Perm l₁ l₂ → l₁.Pairwise R → l₂.Pairwise R →
      (∀ a b, a ∈ l₁ → b ∈ l₁ → R a b → R b a → a = b) → l₁ = l₂ := by
  intro l₁
  induction l₁ with
  | nil => intro l₂ hp _ _ _; simpa using hp.nil_eq
  | cons x t₁ ih =>
    intro l₂ hp h₁ h₂ hanti
    rcases l₂ with _ | ⟨y, t₂⟩
    · exact absurd hp.symm.nil_eq (by simp)
    by_cases hxy : x = y
    · subst hxy
      have hp' := hp.cons_inv
      rcases h₁ with _ | ⟨hx1, ht₁⟩
      rcases h₂ with _ | ⟨hy2, ht₂⟩
      have := ih hp' ht₁ ht₂ (fun a b ha hb => hanti a b (List.mem_cons_of_mem _ ha)
        (List.mem_cons_of_mem _ hb))
      simp [this]
    · exfalso
      have hxl₂ : x ∈ y :: t₂ := hp.mem_iff.mp (List.mem_cons_self _ _)
      have hxt₂ : x ∈ t₂ := by
        rcases List.mem_cons.mp hxl₂ with h | h
        · exact absurd h hxy
        · exact h
      have hyl₁ : y ∈ x :: t₁ := hp.symm.mem_iff.mp (List.mem_cons_self _ _)
      have hyt₁ : y ∈ t₁ := by
        rcases List.mem_cons.mp hyl₁ with h | h
        · exact absurd h.symm hxy
        · exact h
      rcases h₂ with _ | ⟨hy2, _⟩
      rcases h₁ with _ | ⟨hx1, _⟩
      exact hxy (hanti x y (List.mem_cons_self _ _) (List.mem_cons_of_mem _ hyt₁)
        (hx1 y hyt₁) (hy2 x hxt₂))

/-! Claim C2: graceful degradation of the co-reference step. -/

/-- C2: if the provider call inside `runCorefResolution` throws — any error:
network failure (`providerResult` is an error), no JSON in the response, or a
parsed response missing a `merges` array, all of which surface as an
`Except.error` of `llmCorefMerge` — then the returned `confirmedCharacters`
and `candidates` equal the pre-merge input lists exactly and the stats record
carries a non-empty error string. The error is not propagated: the function
totally returns a plain record. -/
theorem runCorefResolution_graceful (parseJson : String → Except String ParsedResponse)
    (confirmedCharacters candidates : List Entity)
    (providerResult : Except String ProviderResponse) (msg : String)
    (h : llmCorefMerge parseJson (allEntityNamesOf confirmedCharacters candidates)
      providerResult = Except.error msg) :
    (runCorefResolution parseJson confirmedCharacters candidates
        providerResult).confirmedCharacters = confirmedCharacters ∧
    (runCorefResolution parseJson confirmedCharacters candidates
        providerResult).candidates = candidates ∧
    ∃ s, (runCorefResolution parseJson confirmedCharacters candidates
        providerResult).corefStats.error = some s ∧ s ≠ "" := by
  simp only [runCorefResolution]
  rw [h]
  refine ⟨rfl, rfl, "LLM call failed: " ++ msg, rfl, ?_⟩
  intro hc
  have hd := congrArg String.data hc
  simp [String.data_append] at hd

/-- C2 witness: a concrete run with a throwing provider returns the inputs
unchanged and a non-empty error string. -/
theorem runCorefResolution_graceful_witness :
    (runCorefResolution c2Parse c2Confirmed [] (Except.error "network failure")).confirmedCharacters
        = c2Confirmed ∧
    (runCorefResolution c2Parse c2Confirmed [] (Except.error "network failure")).candidates = [] ∧
    ∃ s, (runCorefResolution c2Parse c2Confirmed []
        (Except.error "network failure")).corefStats.error = some s ∧ s ≠ "" :=
  runCorefResolution_graceful c2Parse c2Confirmed [] (Except.error "network failure")
    "network failure" (by rfl)

/-! Lemmas about the entity map and the merge folds. -/

theorem emGet_mem {m : List Entity} {k : String} {e : Entity} (h : emGet m k = some e) :
    e ∈ m :=
  List.mem_of_find?_eq_some h

theorem emGet_name {m : List Entity} {k : String} {e : Entity} (h : emGet m k = some e) :
    e.canonicalName = k := by
  have := List.find?_some h
  simpa using this

theorem entityMapOf_eq_self {entities : List Entity}
    (h : (entities.map (fun e => e.canonicalName)).Nodup) :
    entityMapOf entities = entities := by
  suffices hgen : ∀ (l acc : List Entity),
      (∀ e ∈ acc, ∀ e' ∈ l, e.canonicalName ≠ e'.canonicalName) →
      (l.map (fun e => e.canonicalName)).Nodup →
      l.foldl emSet acc = acc ++ l by
    simpa using hgen entities [] (by simp) h
  intro l
  induction l with
  | nil => intro acc _ _; simp
  | cons e l ih =>
    intro acc hdisj hnd
    simp only [List.foldl_cons]
    have hset : emSet acc e = acc ++ [e] := by
      unfold emSet
      have : ¬ acc.any (fun x => x.canonicalName == e.canonicalName) = true := by
        simp only [List.any_eq_true, beq_iff_eq, not_exists, not_and]
        intro x hx
        exact hdisj x hx e (List.mem_cons_self _ _)
      simp [this]
    rw [hset]
    simp only [List.map_cons, List.nodup_cons] at hnd
    rw [ih (acc ++ [e]) ?_ hnd.2]
    · simp
    · intro x hx e' he'
      rcases List.mem_append.mp hx with hx | hx
      · exact hdisj x hx e' (List.mem_cons_of_mem _ he')
      · have : x = e := by simpa using hx
        subst this
        intro hc
        exact hnd.1 (by
          rw [hc]
          exact List.mem_map.mpr ⟨e', he', rfl⟩)

theorem foldl_mergeOther_spec (others : List Entity) : ∀ p : Entity,
    (others.foldl mergeOther p).canonicalName = p.canonicalName ∧
    (others.foldl mergeOther p).mentions =
      p.mentions + (others.map (fun e => e.mentions)).sum ∧
    (others.foldl mergeOther p).mergedFrom =
      p.mergedFrom ++ others.map (fun e => e.canonicalName) := by
  induction others with
  | nil => intro p; simp
  | cons o os ih =>
    intro p
    simp only [List.foldl_cons, List.map_cons, List.sum_cons]
    obtain ⟨h1, h2, h3⟩ := ih (mergeOther p o)
    refine ⟨?_, ?_, ?_⟩
    · rw [h1]; simp [mergeOther]
    · rw [h2]; simp [mergeOther]; omega
    · rw [h3]; simp [mergeOther]

theorem foldl_adoptFA_spec (others : List Entity) : ∀ p : Entity,
    (others.foldl adoptFirstAppearance p).canonicalName = p.canonicalName ∧
    (others.foldl adoptFirstAppearance p).mentions = p.mentions ∧
    (others.foldl adoptFirstAppearance p).mergedFrom = p.mergedFrom ∧
    (others.foldl adoptFirstAppearance p).variants = p.variants := by
  induction others with
  | nil => intro p; simp
  | cons o os ih =>
    intro p
    simp only [List.foldl_cons]
    obtain ⟨h1, h2, h3, h4⟩ := ih (adoptFirstAppearance p o)
    have hstep : (adoptFirstAppearance p o).canonicalName = p.canonicalName ∧
        (adoptFirstAppearance p o).mentions = p.mentions ∧
        (adoptFirstAppearance p o).mergedFrom = p.mergedFrom ∧
        (adoptFirstAppearance p o).variants = p.variants := by
      unfold adoptFirstAppearance
      rcases o.firstAppearance with _ | fa <;> rcases hp : p.firstAppearance with _ | pa <;>
        simp [hp]
    exact ⟨h1.trans hstep.1, h2.trans hstep.2.1, h3.trans hstep.2.2.1, h4.trans hstep.2.2.2⟩

theorem resolveGroup_names (entities : List Entity) (g : List String) :
    (resolveGroup entities g).map (fun e => e.canonicalName) =
      g.filter (fun n => (emGet (entityMapOf entities) n).isSome) := by
  induction g with
  | nil => simp [resolveGroup]
  | cons n g ih =>
    simp only [resolveGroup, List.filterMap_cons] at ih ⊢
    cases hn : emGet (entityMapOf entities) n with
    | none => simpa [hn] using ih
    | some e =>
      simp only [List.map_cons, List.filter_cons, hn, Option.isSome_some, if_true]
      rw [emGet_name hn]
      simpa using ih

theorem mem_foldl_emDelete {others : List Entity} {m : List Entity} {e : Entity}
    (hmem : e ∈ m) (hne : ∀ o ∈ others, e.canonicalName ≠ o.canonicalName) :
    e ∈ others.foldl (fun m o => emDelete m o.canonicalName) m := by
  induction others generalizing m with
  | nil => simpa using hmem
  | cons o os ih =>
    simp only [List.foldl_cons]
    refine ih ?_ (fun o' ho' => hne o' (List.mem_cons_of_mem _ ho'))
    unfold emDelete
    refine List.mem_filter.mpr ⟨hmem, ?_⟩
    simp only [Bool.not_eq_true']
    exact beq_false_of_ne (hne o (List.mem_cons_self _ _))

theorem mentionsDescPre_total (a b : Entity) :
    mentionsDescPre a b = true ∨ mentionsDescPre b a = true := by
  unfold mentionsDescPre
  rcases Nat.le_total b.mentions a.mentions with h | h
  · exact Or.inl (by simpa using h)
  · exact Or.inr (by simpa using h)

theorem mentionsDescPre_trans (a b c : Entity) :
    mentionsDescPre a b = true → mentionsDescPre b c = true → mentionsDescPre a c = true := by
  unfold mentionsDescPre
  intro h1 h2
  simp only [decide_eq_true_eq] at *
  omega

theorem applyMergeGroup_merge {st : MergeState} {g : List String} {primary : Entity}
    {others : List Entity}
    (hg2 : ¬ g.length < 2)
    (hlen : ¬ (g.filterMap (emGet st.map)).length < 2)
    (hsorted : stableSortBy mentionsDescPre (g.filterMap (emGet st.map)) = primary :: others) :
    applyMergeGroup st g =
      { map := emReplace (others.foldl (fun m o => emDelete m o.canonicalName) st.map)
          primary.canonicalName
          (others.foldl adoptFirstAppearance (others.foldl mergeOther primary))
        applied := st.applied ++
          [{ primary := (others.foldl adoptFirstAppearance
                (others.foldl mergeOther primary)).canonicalName
             merged := others.map (fun e => e.canonicalName)
             newMentionCount := (others.foldl adoptFirstAppearance
                (others.foldl mergeOther primary)).mentions }]
        skipped := st.skipped } := by
  unfold applyMergeGroup
  rw [if_neg hg2]
  simp only []
  rw [if_neg hlen, hsorted]

/-- C3: for a merge group at least two of whose names resolve (with pairwise
distinct canonical names and no duplicate names in the group), the sorted
resolved list's head is an entity of maximal mention count (the primary), the
output contains an entity with the primary's canonical name whose mention
count is the primary's plus every other resolved entity's, and whose
`mergedFrom` list extends the primary's by the other resolved entities'
canonical names in descending mention-count order. -/
theorem applyMerges_merge_group (entities : List Entity) (g : List String)
    (hgnodup : g.Nodup)
    (primary : Entity) (others : List Entity)
    (hsorted : stableSortBy mentionsDescPre (resolveGroup entities g) = primary :: others)
    (hlen : 2 ≤ (resolveGroup entities g).length) :
    (∀ e ∈ resolveGroup entities g, e.mentions ≤ primary.mentions) ∧
    (others.map (fun e => e.mentions)).Pairwise (fun a b => b ≤ a) ∧
    ∃ p ∈ (applyMerges entities [g]).entities,
      p.canonicalName = primary.canonicalName ∧
      p.mentions = primary.mentions + (others.map (fun e => e.mentions)).sum ∧
      p.mergedFrom = primary.mergedFrom ++ others.map (fun e => e.canonicalName) := by
  have hpair := stableSortBy_pairwise mentionsDescPre_total mentionsDescPre_trans
    (resolveGroup entities g)
  rw [hsorted] at hpair
  rcases hpair with _ | ⟨hhead, htail⟩
  have hperm := stableSortBy_perm mentionsDescPre (resolveGroup entities g)
  rw [hsorted] at hperm
  refine ⟨?_, ?_, ?_⟩
  · intro e he
    have hmem : e ∈ primary :: others := hperm.symm.mem_iff.mp he
    rcases List.mem_cons.mp hmem with rfl | hmem
    · exact le_refl _
    · have := hhead e hmem
      unfold mentionsDescPre at this
      simpa using this
  · refine List.Pairwise.map _ ?_ htail
    intro a b hab
    unfold mentionsDescPre at hab
    simpa using hab
  · -- The merged primary is in the output map.
    have hresolved_sub : ∀ e ∈ resolveGroup entities g, e ∈ entityMapOf entities := by
      intro e he
      obtain ⟨n, _, hn⟩ := List.mem_filterMap.mp he
      exact emGet_mem hn
    have hprimary_mem : primary ∈ entityMapOf entities :=
      hresolved_sub primary (hperm.mem_iff.mp (List.mem_cons_self _ _))
    have hnames : ((primary :: others).map (fun e => e.canonicalName)).Nodup := by
      rw [← hsorted]
      have h1 : ((stableSortBy mentionsDescPre (resolveGroup entities g)).map
          (fun e => e.canonicalName)).Perm
          ((resolveGroup entities g).map (fun e => e.canonicalName)) :=
        (stableSortBy_perm mentionsDescPre (resolveGroup entities g)).map _
      rw [h1.nodup_iff, resolveGroup_names]
      exact hgnodup.filter _
    simp only [List.map_cons, List.nodup_cons] at hnames
    have hprimary_ne : ∀ o ∈ others, primary.canonicalName ≠ o.canonicalName := by
      intro o ho hc
      exact hnames.1 (hc ▸ List.mem_map.mpr ⟨o, ho, rfl⟩)
    have hglen : 2 ≤ g.length :=
      le_trans hlen (List.length_filterMap_le _ _)
    obtain ⟨hc1, hc2, hc3⟩ := foldl_mergeOther_spec others primary
    obtain ⟨ha1, ha2, ha3, _⟩ := foldl_adoptFA_spec others (others.foldl mergeOther primary)
    have happly := @applyMergeGroup_merge
      { map := entityMapOf entities, applied := [], skipped := [] } g primary others
      (by omega) (by simpa using (by omega : ¬ (resolveGroup entities g).length < 2)) hsorted
    have hout : applyMerges entities [g] =
        { entities := stableSortBy mentionsDescPre (applyMergeGroup
            { map := entityMapOf entities, applied := [], skipped := [] } g).map
          appliedMerges := (applyMergeGroup
            { map := entityMapOf entities, applied := [], skipped := [] } g).applied
          skippedMerges := (applyMergeGroup
            { map := entityMapOf entities, applied := [], skipped := [] } g).skipped } := rfl
    refine ⟨others.foldl adoptFirstAppearance (others.foldl mergeOther primary), ?_, ?_, ?_, ?_⟩
    · rw [hout, happly]
      simp only []
      refine mem_stableSortBy.mpr ?_
      unfold emReplace
      refine List.mem_map.mpr ⟨primary, ?_, ?_⟩
      · exact mem_foldl_emDelete hprimary_mem hprimary_ne
      · simp
    · rw [ha1, hc1]
    · rw [ha2, hc2]
    · rw [ha3, hc3]

/-- C3 witness: the scenario merge group `["Vernon","Uncle Vernon","Mr Dursley"]`
with counts 50/10/5 resolves with "Vernon" as primary; the result has 65
mentions and `mergedFrom = ["Uncle Vernon","Mr Dursley"]`. -/
theorem applyMerges_merge_group_witness :
    c3Group.Nodup ∧
    stableSortBy mentionsDescPre (resolveGroup c3Entities c3Group) =
      c3Vernon :: [c3UncleVernon, c3MrDursley] ∧
    2 ≤ (resolveGroup c3Entities c3Group).length ∧
    ∃ p ∈ (applyMerges c3Entities [c3Group]).entities,
      p.canonicalName = "Vernon" ∧ p.mentions = 65 ∧
      p.mergedFrom = ["Uncle Vernon", "Mr Dursley"] := by
  refine ⟨by decide, by decide, by decide, ?_⟩
  obtain ⟨-, -, p, hp, h1, h2, h3⟩ :=
    applyMerges_merge_group c3Entities c3Group (by decide) c3Vernon
      [c3UncleVernon, c3MrDursley] (by decide) (by decide)
  exact ⟨p, hp, h1.trans (by decide), h2.trans (by decide), h3.trans (by decide)⟩

/-! Claim C4: first-appearance adoption during merge. -/

/-- C4 (code bug record): the absorbed entity `c4Other` has a strictly
earlier first appearance (chapter 1) than the primary `c4Primary`
(chapter 2), yet after the merge the surviving entity still carries the
primary's chapter-2 first appearance: the JS comparison
`other.firstAppearance < primary.firstAppearance` compares two objects and
is always false, so an existing first appearance is never replaced. -/
theorem applyMerges_firstAppearance_not_adopted :
    (applyMerges [c4Primary, c4Other] [["B", "A"]]).entities.map
        (fun p => (p.canonicalName, p.firstAppearance)) =
      [("B", some { chapter := 2, paragraph := 0, form := "B" })] := by
  decide

/-! Claim C1: the total-mention invariant, before and after merge. -/

theorem buildEntityGroups_totalMentions (forms : CategorizedForms) (mentionCounts : Counts)
    (firstAppearances : List (String × Appearance)) :
    ∀ g ∈ buildEntityGroups forms mentionCounts firstAppearances,
      g.totalMentions = (g.variants.map (fun v => v.count)).sum := by
  intro g hg
  simp only [buildEntityGroups] at hg
  obtain ⟨rg, _, rfl⟩ := List.mem_map.mp (mem_stableSortBy.mp hg)
  rfl

theorem mergeOther_inv {p o : Entity}
    (hp : mentionSumInv p ∧ canonicalInVariants p)
    (ho : mentionSumInv o ∧ canonicalInVariants o) :
    mentionSumInv (mergeOther p o) ∧ canonicalInVariants (mergeOther p o) := by
  obtain ⟨hp1, hp2⟩ := hp
  obtain ⟨ho1, ho2⟩ := ho
  have hcond : (p.variants ++ o.variants).any (fun v => v.form == o.canonicalName) = true := by
    simp only [List.any_eq_true, beq_iff_eq]
    obtain ⟨v, hv, hveq⟩ := List.mem_map.mp ho2
    exact ⟨v, List.mem_append.mpr (Or.inr hv), hveq⟩
  constructor
  · unfold mentionSumInv mergeOther
    simp only [hcond, if_true, List.map_append, List.sum_append]
    rw [hp1, ho1]
  · unfold canonicalInVariants mergeOther
    simp only [hcond, if_true, List.map_append]
    exact List.mem_append.mpr (Or.inl hp2)

theorem foldl_mergeOther_inv {others : List Entity}
    (hothers : ∀ o ∈ others, mentionSumInv o ∧ canonicalInVariants o) :
    ∀ {p : Entity}, mentionSumInv p ∧ canonicalInVariants p →
      mentionSumInv (others.foldl mergeOther p) ∧
        canonicalInVariants (others.foldl mergeOther p) := by
  induction others with
  | nil => intro p hp; simpa using hp
  | cons o os ih =>
    intro p hp
    simp only [List.foldl_cons]
    exact ih (fun o' ho' => hothers o' (List.mem_cons_of_mem _ ho'))
      (mergeOther_inv hp (hothers o (List.mem_cons_self _ _)))

theorem foldl_adoptFA_inv {others : List Entity} {p : Entity}
    (hp : mentionSumInv p ∧ canonicalInVariants p) :
    mentionSumInv (others.foldl adoptFirstAppearance p) ∧
      canonicalInVariants (others.foldl adoptFirstAppearance p) := by
  obtain ⟨h1, h2, h3, h4⟩ := foldl_adoptFA_spec others p
  constructor
  · unfold mentionSumInv at *
    rw [h2, h4]
    exact hp.1
  · unfold canonicalInVariants at *
    rw [h1, h4]
    exact hp.2

theorem mem_of_foldl_emDelete {others : List Entity} :
    ∀ {m : List Entity} {e : Entity},
      e ∈ others.foldl (fun m o => emDelete m o.canonicalName) m → e ∈ m := by
  induction others with
  | nil => intro m e he; simpa using he
  | cons o os ih =>
    intro m e he
    simp only [List.foldl_cons] at he
    exact List.mem_of_mem_filter (ih he)

theorem applyMergeGroup_inv {st : MergeState}
    (h : ∀ e ∈ st.map, mentionSumInv e ∧ canonicalInVariants e) (g : List String) :
    ∀ e ∈ (applyMergeGroup st g).map, mentionSumInv e ∧ canonicalInVariants e := by
  intro e he
  unfold applyMergeGroup at he
  by_cases h2 : g.length < 2
  · rw [if_pos h2] at he
    exact h e he
  · rw [if_neg h2] at he
    simp only [] at he
    by_cases h3 : (g.filterMap (emGet st.map)).length < 2
    · rw [if_pos h3] at he
      exact h e he
    · rw [if_neg h3] at he
      rcases hs : stableSortBy mentionsDescPre (g.filterMap (emGet st.map)) with _ | ⟨primary, others⟩
      · rw [hs] at he
        exact h e he
      · rw [hs] at he
        simp only [emReplace] at he
        obtain ⟨x, hx, hxe⟩ := List.mem_map.mp he
        have hxmem : x ∈ st.map := mem_of_foldl_emDelete hx
        have hsortedmem : ∀ y ∈ primary :: others, mentionSumInv y ∧ canonicalInVariants y := by
          intro y hy
          have : y ∈ g.filterMap (emGet st.map) := by
            rw [← hs] at hy
            exact mem_stableSortBy.mp hy
          obtain ⟨n, _, hn⟩ := List.mem_filterMap.mp this
          exact h y (emGet_mem hn)
        by_cases hb : x.canonicalName == primary.canonicalName
        · rw [if_pos hb] at hxe
          subst hxe
          exact foldl_adoptFA_inv (foldl_mergeOther_inv
            (fun o ho => hsortedmem o (List.mem_cons_of_mem _ ho))
            (hsortedmem primary (List.mem_cons_self _ _)))
        · rw [if_neg hb] at hxe
          subst hxe
          exact h x hxmem

theorem foldl_applyMergeGroup_inv (merges : List (List String)) :
    ∀ st : MergeState, (∀ e ∈ st.map, mentionSumInv e ∧ canonicalInVariants e) →
      ∀ e ∈ (merges.foldl applyMergeGroup st).map,
        mentionSumInv e ∧ canonicalInVariants e := by
  induction merges with
  | nil => intro st h; simpa using h
  | cons m ms ih =>
    intro st h
    simp only [List.foldl_cons]
    exact ih _ (applyMergeGroup_inv h m)

theorem mem_foldl_emSet : ∀ {l acc : List Entity} {e : Entity},
    e ∈ l.foldl emSet acc → e ∈ acc ∨ e ∈ l := by
  intro l
  induction l with
  | nil => intro acc e he; exact Or.inl (by simpa using he)
  | cons x l ih =>
    intro acc e he
    simp only [List.foldl_cons] at he
    rcases ih he with hacc | hl
    · unfold emSet at hacc
      by_cases hc : acc.any (fun y => y.canonicalName == x.canonicalName) = true
      · rw [if_pos hc] at hacc
        obtain ⟨y, hy, hye⟩ := List.mem_map.mp hacc
        by_cases hb : y.canonicalName == x.canonicalName
        · rw [if_pos hb] at hye
          exact Or.inr (hye ▸ List.mem_cons_self _ _)
        · rw [if_neg hb] at hye
          exact Or.inl (hye ▸ hy)
      · rw [if_neg hc] at hacc
        rcases List.mem_append.mp hacc with hy | hy
        · exact Or.inl hy
        · refine Or.inr ?_
          rw [List.mem_singleton.mp hy]
          exact List.mem_cons_self x l
    · exact Or.inr (List.mem_cons_of_mem _ hl)

/-- C1: (a) every group `groupVariants` produces satisfies
`totalMentions = sum of variant counts`; (b) if every input entity satisfies
the invariant (and, as every pipeline entity does, lists its canonical name
among its variant forms), then after `applyMerges` every entity still
satisfies it. -/
theorem totalMentions_invariant :
    (∀ (er : ExtractionResult) (minMentions : Nat),
      ∀ g ∈ groupVariants er minMentions,
        g.totalMentions = (g.variants.map (fun v => v.count)).sum) ∧
    (∀ (entities : List Entity) (merges : List (List String)),
      (∀ e ∈ entities, mentionSumInv e ∧ canonicalInVariants e) →
      ∀ e ∈ (applyMerges entities merges).entities, mentionSumInv e) := by
  constructor
  · intro er minMentions g hg
    simp only [groupVariants] at hg
    exact buildEntityGroups_totalMentions _ _ _ g (List.mem_of_mem_filter hg)
  · intro entities merges hinv e he
    simp only [applyMerges] at he
    have hstart : ∀ x ∈ (entityMapOf entities), mentionSumInv x ∧ canonicalInVariants x := by
      intro x hx
      rcases mem_foldl_emSet hx with h | h
      · cases h
      · exact hinv x h
    exact (foldl_applyMergeGroup_inv merges
      { map := entityMapOf entities, applied := [], skipped := [] } hstart e
      (mem_stableSortBy.mp he)).1

/-- C1 witness: both halves of the invariant at concrete inputs — the one
group built from three "Harry" mentions, and the Vernon merge — with
non-vacuity of each quantifier. -/
theorem totalMentions_invariant_witness :
    (∀ g ∈ groupVariants c1Extraction 1,
      g.totalMentions = (g.variants.map (fun v => v.count)).sum) ∧
    (groupVariants c1Extraction 1).length = 1 ∧
    (∀ e ∈ (applyMerges c3Entities [c3Group]).entities, mentionSumInv e) ∧
    (applyMerges c3Entities [c3Group]).entities.length = 1 :=
  ⟨totalMentions_invariant.1 c1Extraction 1, by decide,
   totalMentions_invariant.2 c3Entities [c3Group] (by decide), by decide⟩

/-! Claim C6: bare-title disqualification precedes every qualification. -/

theorem checkTier1Qualification_not_disqualified {titlePrefixes : List String}
    {group : EntityGroup} {singleWordCounts mentionCounts possessiveCounts : Counts}
    {minPossessive minMentions minPartMentions : Nat} {r : String}
    (h : checkTier1Qualification titlePrefixes group singleWordCounts mentionCounts
      possessiveCounts minPossessive minMentions minPartMentions = some r) :
    isBareTitleName group.canonicalName = false ∧
      isTitleLetterName group.canonicalName = false := by
  unfold checkTier1Qualification at h
  by_cases h1 : isBareTitleName group.canonicalName
  · rw [if_pos h1] at h
    cases h
  · rw [if_neg h1] at h
    by_cases h2 : isTitleLetterName group.canonicalName
    · rw [if_pos h2] at h
      cases h
    · exact ⟨Bool.eq_false_iff.mpr h1, Bool.eq_false_iff.mpr h2⟩

/-- C6: in `tierEntities`, no entity whose canonical name is a bare title
word (with or without a trailing period) or a title plus a single letter is
ever placed in the confirmed tier — for every group, every evidence record,
every count table and every option setting, because the two disqualification
tests run before every qualification test. -/
theorem tierEntities_disqualified_never_confirmed
    (titlePrefixes : List String) (cleanGroups : List EntityGroup)
    (er : ExtractionResult) (opts : TierOptions) :
    ∀ e ∈ (tierEntities titlePrefixes cleanGroups er opts).confirmedCharacters,
      isBareTitleName e.canonicalName = false ∧
        isTitleLetterName e.canonicalName = false := by
  intro e he
  simp only [tierEntities] at he
  have he' := mem_stableSortBy.mp he
  clear he
  revert he'
  suffices hgen : ∀ (l : List EntityGroup) (acc : TierResult),
      (∀ e ∈ acc.confirmedCharacters,
        isBareTitleName e.canonicalName = false ∧ isTitleLetterName e.canonicalName = false) →
      ∀ e ∈ (l.foldl
        (fun (acc : TierResult) group =>
          match checkTier1Qualification titlePrefixes group
              (buildSingleWordCounts cleanGroups) er.mentionCounts er.possessiveCounts
              opts.minPossessiveForConfirm opts.minMentionsForPossessiveConfirm
              opts.minIndependentPartMentions with
          | some reason =>
            { acc with confirmedCharacters := acc.confirmedCharacters ++
                [{ id := generateEntityId group.canonicalName
                   canonicalName := group.canonicalName
                   mentions := group.totalMentions
                   variants := group.variants.map (fun v => { form := v.form, count := v.count })
                   qualifiedBy := some reason
                   firstAppearance := some group.firstAppearance }] }
          | none =>
            if opts.minCandidateMentions ≤ group.totalMentions then
              { acc with candidates := acc.candidates ++
                  [{ id := generateEntityId group.canonicalName
                     canonicalName := group.canonicalName
                     mentions := group.totalMentions
                     variants := group.variants.map (fun v => { form := v.form, count := v.count })
                     notes := some (generateCandidateNotes group)
                     firstAppearance := some group.firstAppearance }] }
            else acc)
        acc).confirmedCharacters,
        isBareTitleName e.canonicalName = false ∧ isTitleLetterName e.canonicalName = false by
    intro he'
    exact hgen cleanGroups { confirmedCharacters := [], candidates := [] } (by simp) e he'
  intro l
  induction l with
  | nil => intro acc hacc; simpa using hacc
  | cons group groups ih =>
    intro acc hacc
    simp only [List.foldl_cons]
    refine ih _ ?_
    rcases hq : checkTier1Qualification titlePrefixes group
        (buildSingleWordCounts cleanGroups) er.mentionCounts er.possessiveCounts
        opts.minPossessiveForConfirm opts.minMentionsForPossessiveConfirm
        opts.minIndependentPartMentions with _ | reason
    · simp only [hq]
      by_cases hc : opts.minCandidateMentions ≤ group.totalMentions
      · rw [if_pos hc]
        simpa using hacc
      · rw [if_neg hc]
        exact hacc
    · simp only [hq]
      intro e he
      simp only [List.mem_append] at he
      rcases he with he | he
      · exact hacc e he
      · have : e.canonicalName = group.canonicalName := by
          rcases List.mem_singleton.mp he with rfl
          rfl
        rw [this]
        exact checkTier1Qualification_not_disqualified hq

/-- C6 witness: a concrete run confirming one ordinary-named entity, to
which the disqualification theorem applies non-vacuously. -/
theorem tierEntities_disqualified_never_confirmed_witness :
    (tierEntities [] [c6Group] c1Extraction {}).confirmedCharacters.length = 1 ∧
    ∀ e ∈ (tierEntities [] [c6Group] c1Extraction {}).confirmedCharacters,
      isBareTitleName e.canonicalName = false ∧
        isTitleLetterName e.canonicalName = false :=
  ⟨by decide, tierEntities_disqualified_never_confirmed [] [c6Group] c1Extraction {}⟩

/-! Claim C5: the list-separated-names heuristic. -/

/-- C5: for a two-word group with fewer than 10 total mentions that the
sentence-start and truncated-phrase heuristics did not already exclude,
`checkForExclusion` reports reason `list_separated_names` exactly when the
`"w1 [,] (and|or) w2"` pattern or the `"w1, w2,"` pattern occurs at least 3
times in the source text and that pattern's count exceeds the count of the
literal canonical-name bigram. -/
theorem checkForExclusion_list_separated (group : EntityGroup)
    (sentenceStartCounts mentionCounts twoWordFirstWords : Counts) (fullText : String)
    (w1 w2 : String)
    (hwords : splitWs group.canonicalName = [w1, w2])
    (hfreq : group.totalMentions < 10)
    (h1 : ¬ ((0 < group.totalMentions ∧
        group.totalMentions < 2 * getSentenceStartCount group sentenceStartCounts) ∧
        5 ≤ group.totalMentions))
    (h2 : (countsGet twoWordFirstWords w1).getD 0 < 3) :
    (∃ ex, checkForExclusion group sentenceStartCounts mentionCounts twoWordFirstWords
        fullText = some ex ∧ ex.reason = "list_separated_names") ↔
      ((3 ≤ countPattern fullText (andPat w1 w2) ∧
          countPattern fullText (fullNamePat group.canonicalName) <
            countPattern fullText (andPat w1 w2)) ∨
        (3 ≤ countPattern fullText (commaListPat w1 w2) ∧
          countPattern fullText (fullNamePat group.canonicalName) <
            countPattern fullText (commaListPat w1 w2))) := by
  simp only [checkForExclusion]
  rw [if_neg h1, hwords]
  simp only []
  rw [if_neg (by omega : ¬ 3 ≤ (countsGet twoWordFirstWords w1).getD 0)]
  rw [if_pos hfreq]
  simp only [detectListSeparation]
  by_cases hA : 3 ≤ countPattern fullText (andPat w1 w2) ∧
      countPattern fullText (fullNamePat group.canonicalName) <
        countPattern fullText (andPat w1 w2)
  · rw [if_pos hA]
    simp only []
    constructor
    · intro _
      exact Or.inl hA
    · intro _
      exact ⟨_, rfl, rfl⟩
  · rw [if_neg hA]
    by_cases hB : 3 ≤ countPattern fullText (commaListPat w1 w2) ∧
        countPattern fullText (fullNamePat group.canonicalName) <
          countPattern fullText (commaListPat w1 w2)
    · rw [if_pos hB]
      simp only []
      constructor
      · intro _
        exact Or.inr hB
      · intro _
        exact ⟨_, rfl, rfl⟩
    · rw [if_neg hB]
      simp only [Bool.false_eq_true, if_false]
      constructor
      · intro hex
        by_cases h30 : group.totalMentions < 30
        · rw [if_pos h30] at hex
          by_cases h40 : 40 ≤ (countsGet mentionCounts w1).getD 0 ∧
              40 ≤ (countsGet mentionCounts w2).getD 0
          · rw [if_pos h40] at hex
            obtain ⟨ex, hex, hr⟩ := hex
            rw [← Option.some_inj.mp hex] at hr
            have hr' : ("both_words_high_frequency" : String) = "list_separated_names" := hr
            exact absurd hr' (by decide)
          · rw [if_neg h40] at hex
            obtain ⟨ex, hex, _⟩ := hex
            cases hex
        · rw [if_neg h30] at hex
          obtain ⟨ex, hex, _⟩ := hex
          cases hex
      · intro hrhs
        rcases hrhs with h | h
        · exact absurd h hA
        · exact absurd h hB

/-- C5 witness: the "Malfoy Crabbe" group in the three-list text is excluded
with reason `list_separated_names` (via the comma-list pattern; the literal
bigram never occurs). -/
theorem checkForExclusion_list_separated_witness :
    splitWs c5Group.canonicalName = ["Malfoy", "Crabbe"] ∧
    c5Group.totalMentions < 10 ∧
    countPattern c5Text (fullNamePat c5Group.canonicalName) = 0 ∧
    countPattern c5Text (commaListPat "Malfoy" "Crabbe") = 3 ∧
    ∃ ex, checkForExclusion c5Group [] [] [] c5Text = some ex ∧
      ex.reason = "list_separated_names" := by
  refine ⟨by decide, by decide, by decide, by decide, ?_⟩
  refine (checkForExclusion_list_separated c5Group [] [] [] c5Text "Malfoy" "Crabbe"
    (by decide) (by decide) (by decide) (by decide)).mpr ?_
  exact Or.inr ⟨by decide, by decide⟩

/-! Lemmas about lexicographic string order and ordered pairs (claim C8). -/

theorem listCharLe_total : ∀ a b : List Char, listCharLe a b = true ∨ listCharLe b a = true := by
  intro a
  induction a with
  | nil => intro b; exact Or.inl rfl
  | cons x xs ih =>
    intro b
    cases b with
    | nil => exact Or.inr rfl
    | cons y ys =>
      simp only [listCharLe]
      rcases lt_trichotomy x y with h | h | h
      · left
        rw [if_pos h]
      · subst h
        simp only [if_neg (lt_irrefl x)]
        exact ih ys
      · right
        rw [if_pos h]

theorem listCharLe_trans : ∀ a b c : List Char, listCharLe a b = true →
    listCharLe b c = true → listCharLe a c = true := by
  intro a
  induction a with
  | nil => intro b c _ _; rfl
  | cons x xs ih =>
    intro b c hab hbc
    cases b with
    | nil => simp [listCharLe] at hab
    | cons y ys =>
      cases c with
      | nil => simp [listCharLe] at hbc
      | cons z zs =>
        simp only [listCharLe] at hab hbc ⊢
        rcases lt_trichotomy x y with hxy | hxy | hxy
        · rcases lt_trichotomy y z with hyz | hyz | hyz
          · rw [if_pos (lt_trans hxy hyz)]
          · subst hyz
            rw [if_pos hxy]
          · rw [if_pos hyz, if_neg (lt_asymm hyz)] at hbc
            simp at hbc
        · subst hxy
          rcases lt_trichotomy x z with hyz | hyz | hyz
          · rw [if_pos hyz]
          · subst hyz
            rw [if_neg (lt_irrefl x), if_neg (lt_irrefl x)] at hab hbc ⊢
            exact ih ys zs hab hbc
          · rw [if_pos hyz, if_neg (lt_asymm hyz)] at hbc
            simp at hbc
        · rw [if_pos hxy, if_neg (lt_asymm hxy)] at hab
          simp at hab

theorem listCharLe_antisymm : ∀ a b : List Char, listCharLe a b = true →
    listCharLe b a = true → a = b := by
  intro a
  induction a with
  | nil =>
    intro b _ hba
    cases b with
    | nil => rfl
    | cons y ys => simp [listCharLe] at hba
  | cons x xs ih =>
    intro b hab hba
    cases b with
    | nil => simp [listCharLe] at hab
    | cons y ys =>
      simp only [listCharLe] at hab hba
      rcases lt_trichotomy x y with h | h | h
      · rw [if_neg (lt_asymm h), if_pos h] at hba
        simp at hba
      · subst h
        rw [if_neg (lt_irrefl x), if_neg (lt_irrefl x)] at hab hba
        rw [ih ys hab hba]
      · rw [if_pos h, if_neg (lt_asymm h)] at hab
        simp at hab

theorem strPre_total (a b : String) : strPre a b = true ∨ strPre b a = true :=
  listCharLe_total a.data b.data

theorem strPre_trans (a b c : String) : strPre a b = true → strPre b c = true →
    strPre a c = true :=
  listCharLe_trans a.data b.data c.data

theorem strPre_antisymm {a b : String} (hab : strPre a b = true) (hba : strPre b a = true) :
    a = b :=
  String.ext (listCharLe_antisymm a.data b.data hab hba)

theorem mem_pairsOf {l : List α} {p : α × α} (h : p ∈ pairsOf l) : p.1 ∈ l ∧ p.2 ∈ l := by
  induction l with
  | nil => cases h
  | cons x rest ih =>
    simp only [pairsOf, List.mem_append, List.mem_map] at h
    rcases h with ⟨y, hy, rfl⟩ | h
    · exact ⟨List.mem_cons_self _ _, List.mem_cons_of_mem _ hy⟩
    · obtain ⟨h1, h2⟩ := ih h
      exact ⟨List.mem_cons_of_mem _ h1, List.mem_cons_of_mem _ h2⟩

theorem pairsOf_rel {R : α → α → Prop} {l : List α} (hl : l.Pairwise R) {p : α × α}
    (h : p ∈ pairsOf l) : R p.1 p.2 := by
  induction l with
  | nil => cases h
  | cons x rest ih =>
    rcases hl with _ | ⟨hx, hrest⟩
    simp only [pairsOf, List.mem_append, List.mem_map] at h
    rcases h with ⟨y, hy, rfl⟩ | h
    · exact hx y hy
    · exact ih hrest h

theorem pairsOf_count_not_mem [DecidableEq α] {l : List α} {x : α} (hx : x ∉ l) (y : α) :
    (pairsOf l).count (x, y) = 0 ∧ (pairsOf l).count (y, x) = 0 := by
  constructor
  · exact List.count_eq_zero.mpr (fun h => hx (mem_pairsOf h).1)
  · exact List.count_eq_zero.mpr (fun h => hx (mem_pairsOf h).2)

theorem count_map_pair [DecidableEq α] (a : α) (rest : List α) (q : α × α) :
    (rest.map (fun z => (a, z))).count q = if q.1 = a then rest.count q.2 else 0 := by
  rcases q with ⟨q1, q2⟩
  by_cases h1 : q1 = a
  · subst h1
    simp only [if_pos rfl]
    induction rest with
    | nil => rfl
    | cons r rs ih =>
      simp only [List.map_cons, List.count_cons, ih]
      congr 1
      by_cases h2 : q2 = r
      · subst h2
        simp
      · have hq : ¬ (((q1, r) == (q1, q2)) = true) := by
          simp only [beq_iff_eq, Prod.ext_iff, not_and]
          intro _
          exact fun h => h2 h.symm
        have hr : ¬ ((r == q2) = true) := by
          simpa using fun h => h2 h.symm
        rw [if_neg hq, if_neg hr]
  · simp only [if_neg h1]
    rw [List.count_eq_zero]
    intro hmem
    obtain ⟨z, _, hz⟩ := List.mem_map.mp hmem
    exact h1 (congrArg Prod.fst hz).symm

theorem pairsOf_count_one [DecidableEq α] {l : List α} (hnd : l.Nodup) {x y : α}
    (hx : x ∈ l) (hy : y ∈ l) (hne : x ≠ y) :
    ((pairsOf l).count (x, y) = 1 ∧ (pairsOf l).count (y, x) = 0) ∨
    ((pairsOf l).count (x, y) = 0 ∧ (pairsOf l).count (y, x) = 1) := by
  induction l with
  | nil => cases hx
  | cons a rest ih =>
    obtain ⟨hna, hnrest⟩ := List.nodup_cons.mp hnd
    simp only [pairsOf, List.count_append, count_map_pair]
    by_cases hxa : x = a
    · subst hxa
      have hyrest : y ∈ rest := by
        rcases List.mem_cons.mp hy with h | h
        · exact absurd h.symm hne
        · exact h
      left
      constructor
      · rw [if_pos rfl, List.count_eq_one_of_mem hnrest hyrest,
          (pairsOf_count_not_mem hna y).1]
      · rw [if_neg (fun h => hne h.symm), (pairsOf_count_not_mem hna y).2]
    · by_cases hya : y = a
      · subst hya
        have hxrest : x ∈ rest := by
          rcases List.mem_cons.mp hx with h | h
          · exact absurd h hxa
          · exact h
        right
        constructor
        · rw [if_neg hxa, (pairsOf_count_not_mem hna x).2]
        · rw [if_pos rfl, List.count_eq_one_of_mem hnrest hxrest,
            (pairsOf_count_not_mem hna x).1]
      · have hxrest : x ∈ rest := by
          rcases List.mem_cons.mp hx with h | h
          · exact absurd h hxa
          · exact h
        have hyrest : y ∈ rest := by
          rcases List.mem_cons.mp hy with h | h
          · exact absurd h hya
          · exact h
        rcases ih hnrest hxrest hyrest with ⟨h1, h2⟩ | ⟨h1, h2⟩
        · left
          rw [if_neg hxa, if_neg hya, h1, h2]
          exact ⟨rfl, rfl⟩
        · right
          rw [if_neg hxa, if_neg hya, h1, h2]
          exact ⟨rfl, rfl⟩

theorem bucketOf_nil (K : String) : bucketOf [] K = [] := rfl

theorem bucketOf_cons (k : String) (g : List String) (rest : List (String × List String))
    (K : String) :
    bucketOf ((k, g) :: rest) K = if k = K then g else bucketOf rest K := by
  by_cases h : k = K
  · subst h
    simp [bucketOf, List.find?]
  · simp [bucketOf, List.find?, h]

theorem bucketOf_addToBucket (k v K : String) :
    ∀ idx : List (String × List String),
      bucketOf (addToBucket k v idx) K =
        if k = K then bucketOf idx K ++ [v] else bucketOf idx K := by
  intro idx
  induction idx with
  | nil =>
    simp only [addToBucket, bucketOf_nil]
    by_cases h : k = K
    · rw [if_pos h, bucketOf_cons, if_pos h]
      simp
    · rw [bucketOf_cons, if_neg h, if_neg h, bucketOf_nil]
  | cons p rest ih =>
    rcases p with ⟨k', g⟩
    simp only [addToBucket]
    by_cases h1 : k' = k
    · subst h1
      rw [if_pos rfl, bucketOf_cons, bucketOf_cons]
      by_cases h2 : k' = K
      · rw [if_pos h2, if_pos h2, if_pos h2]
      · rw [if_neg h2, if_neg h2, if_neg h2]
    · rw [if_neg h1, bucketOf_cons, bucketOf_cons]
      by_cases h2 : k' = K
      · rw [if_pos h2, if_pos h2]
        rw [if_neg (fun hc => h1 (h2.trans hc.symm))]
      · rw [if_neg h2, if_neg h2, ih]

theorem bucketOf_foldl_addToBucket (contribs : List (String × String)) :
    ∀ (idx : List (String × List String)) (K v : String),
      ((bucketOf (contribs.foldl (fun idx kv => addToBucket kv.1 kv.2 idx) idx) K).count v) =
        (bucketOf idx K).count v + contribs.count (K, v) := by
  induction contribs with
  | nil => intro idx K v; simp
  | cons kv rest ih =>
    intro idx K v
    rcases kv with ⟨k1, v1⟩
    simp only [List.foldl_cons]
    rw [ih, bucketOf_addToBucket, List.count_cons]
    by_cases h1 : k1 = K
    · rw [if_pos h1, List.count_append]
      by_cases h2 : v1 = v
      · subst h2
        rw [if_pos (by simp [h1])]
        simp
        omega
      · rw [if_neg (by simp [Prod.ext_iff]; intro _; exact fun hc => h2 hc)]
        have hz : List.count v [v1] = 0 := by
          rw [List.count_eq_zero]
          simp only [List.mem_singleton]
          exact fun hc => h2 hc.symm
        rw [hz]
        omega
    · rw [if_neg h1]
      rw [if_neg (by simp [Prod.ext_iff]; intro hc; exact absurd hc h1)]
      simp

theorem cooccurrence_fold_count (snippets : List Snippet) :
    ∀ (idx : List (String × List String)) (K v : String),
      ((bucketOf (snippets.foldl
          (fun idx s => (snippetPairContribs s).foldl
            (fun idx kv => addToBucket kv.1 kv.2 idx) idx) idx) K).count v) =
        (bucketOf idx K).count v +
          (snippets.map (fun s => (snippetPairContribs s).count (K, v))).sum := by
  induction snippets with
  | nil => intro idx K v; simp
  | cons s rest ih =>
    intro idx K v
    simp only [List.foldl_cons, List.map_cons, List.sum_cons]
    rw [ih, bucketOf_foldl_addToBucket]
    omega

theorem bucketOf_map_sort (idx : List (String × List String)) (K : String) :
    bucketOf (idx.map (fun p => (p.1, stableSortBy strPre p.2))) K =
      stableSortBy strPre (bucketOf idx K) := by
  induction idx with
  | nil => rfl
  | cons p rest ih =>
    rcases p with ⟨k, g⟩
    simp only [List.map_cons]
    rw [bucketOf_cons, bucketOf_cons]
    by_cases h : k = K
    · rw [if_pos h, if_pos h]
    · rw [if_neg h, if_neg h, ih]

theorem snippetPairContribs_count_ne {t : Snippet} {K v : String} (hv : v ≠ t.id) :
    (snippetPairContribs t).count (K, v) = 0 := by
  rw [List.count_eq_zero]
  intro hmem
  unfold snippetPairContribs at hmem
  obtain ⟨p, _, hp⟩ := List.mem_map.mp hmem
  exact hv (congrArg Prod.snd hp).symm

theorem append_plus_inj : ∀ {a c b d : List Char}, '+' ∉ a → '+' ∉ c →
    a ++ '+' :: b = c ++ '+' :: d → a = c ∧ b = d := by
  intro a
  induction a with
  | nil =>
    intro c b d _ hc h
    cases c with
    | nil => simpa using h
    | cons c0 cs =>
      simp only [List.nil_append, List.cons_append, List.cons.injEq] at h
      exact absurd (h.1 ▸ List.mem_cons_self c0 cs) (h.1 ▸ hc)
  | cons a0 as ih =>
    intro c b d ha hc h
    cases c with
    | nil =>
      simp only [List.cons_append, List.nil_append, List.cons.injEq] at h
      exact absurd (h.1 ▸ List.mem_cons_self a0 as) (fun hmem => ha (h.1 ▸ hmem))
    | cons c0 cs =>
      simp only [List.cons_append, List.cons.injEq] at h
      obtain ⟨h1, h2⟩ := h
      have has : '+' ∉ as := fun hm => ha (List.mem_cons_of_mem _ hm)
      have hcs : '+' ∉ cs := fun hm => hc (List.mem_cons_of_mem _ hm)
      obtain ⟨h3, h4⟩ := ih has hcs h2
      exact ⟨by rw [h1, h3], h4⟩

theorem key_inj {a b c d : String} (ha : '+' ∉ a.data) (hc : '+' ∉ c.data)
    (h : a ++ "+" ++ b = c ++ "+" ++ d) : a = c ∧ b = d := by
  have hd := congrArg String.data h
  have hplus : ("+" : String).data = ['+'] := rfl
  simp only [String.data_append, hplus, List.append_assoc, List.singleton_append] at hd
  obtain ⟨h1, h2⟩ := append_plus_inj ha hc hd
  exact ⟨String.ext h1, String.ext h2⟩

theorem sum_single_nonzero (K : String) {l : List Snippet} {s : Snippet}
    (hids : (l.map (fun t => t.id)).Nodup) (hs : s ∈ l) :
    (l.map (fun t => (snippetPairContribs t).count (K, s.id))).sum =
      (snippetPairContribs s).count (K, s.id) := by
  induction l with
  | nil => cases hs
  | cons t rest ih =>
    simp only [List.map_cons, List.nodup_cons] at hids
    obtain ⟨hni, hnrest⟩ := hids
    simp only [List.map_cons, List.sum_cons]
    rcases List.mem_cons.mp hs with rfl | hsrest
    · have hz : ∀ r ∈ rest, (snippetPairContribs r).count (K, s.id) = 0 := by
        intro r hr
        refine snippetPairContribs_count_ne ?_
        intro hc
        exact hni (hc ▸ List.mem_map.mpr ⟨r, hr, rfl⟩)
      rw [List.sum_eq_zero]
      · omega
      · intro x hx
        obtain ⟨r, hr, rfl⟩ := List.mem_map.mp hx
        exact hz r hr
    · have htne : s.id ≠ t.id := by
        intro hc
        exact hni (hc ▸ List.mem_map.mpr ⟨s, hsrest, rfl⟩)
      rw [snippetPairContribs_count_ne htne, ih hnrest hsrest]
      omega

/-- C8: for a snippet containing two distinct entity ids `A` and `B` (and a
duplicate-free entity list, as `extract-snippets.js` builds via a `Set`),
the co-occurrence index holds that snippet's id exactly once under the
single key `min(A,B) + "+" + max(A,B)` (ids sorted lexicographically) —
independent of the order of `A` and `B` in the entity list, since the
statement only assumes membership and is symmetric in `A` and `B`. -/
theorem buildCooccurrenceIndex_pair_once (snippets : List Snippet) (s : Snippet)
    (A B : String)
    (hids : (snippets.map (fun t => t.id)).Nodup)
    (hs : s ∈ snippets)
    (hA : A ∈ s.entities) (hB : B ∈ s.entities) (hAB : A ≠ B)
    (hnd : s.entities.Nodup)
    (hplus : ∀ e ∈ s.entities, '+' ∉ e.data) :
    ((bucketOf (buildCooccurrenceIndex snippets)
      (strMin A B ++ "+" ++ strMax A B)).count s.id) = 1 := by
  have hminmem : strMin A B ∈ s.entities := by
    unfold strMin
    by_cases h : strLeb A B
    · rw [if_pos h]; exact hA
    · rw [if_neg h]; exact hB
  have hmaxmem : strMax A B ∈ s.entities := by
    unfold strMax
    by_cases h : strLeb A B
    · rw [if_pos h]; exact hB
    · rw [if_neg h]; exact hA
  have hminmax : strPre (strMin A B) (strMax A B) = true := by
    unfold strMin strMax
    by_cases h : strLeb A B
    · rw [if_pos h, if_pos h]
      exact h
    · rw [if_neg h, if_neg h]
      exact (strPre_total A B).resolve_left h
  have hminne : strMin A B ≠ strMax A B := by
    unfold strMin strMax
    by_cases h : strLeb A B
    · rw [if_pos h, if_pos h]; exact hAB
    · rw [if_neg h, if_neg h]; exact fun hc => hAB hc.symm
  unfold buildCooccurrenceIndex
  simp only []
  rw [bucketOf_map_sort, (stableSortBy_perm strPre _).count_eq,
    cooccurrence_fold_count, bucketOf_nil, sum_single_nonzero _ hids hs]
  simp only [List.count_nil, Nat.zero_add]
  -- The contributions of s itself.
  unfold snippetPairContribs
  have hsortperm := stableSortBy_perm strPre s.entities
  have hsortnd : (stableSortBy strPre s.entities).Nodup := hsortperm.nodup_iff.mpr hnd
  have hsortpair := stableSortBy_pairwise strPre_total strPre_trans s.entities
  have hminmem' : strMin A B ∈ stableSortBy strPre s.entities := mem_stableSortBy.mpr hminmem
  have hmaxmem' : strMax A B ∈ stableSortBy strPre s.entities := mem_stableSortBy.mpr hmaxmem
  have hcount1 : (pairsOf (stableSortBy strPre s.entities)).count (strMin A B, strMax A B) = 1 := by
    rcases pairsOf_count_one hsortnd hminmem' hmaxmem' hminne with ⟨h1, _⟩ | ⟨_, h2⟩
    · exact h1
    · exfalso
      have hmem : (strMax A B, strMin A B) ∈ pairsOf (stableSortBy strPre s.entities) :=
        List.count_pos_iff.mp (by rw [h2]; omega)
      have := pairsOf_rel hsortpair hmem
      exact hminne (strPre_antisymm hminmax this)
  rw [← hcount1]
  -- Relate the mapped count to the pair count via key injectivity.
  rw [List.count, List.count, List.countP_map]
  refine List.countP_congr ?_
  intro p hp
  obtain ⟨hp1, hp2⟩ := mem_pairsOf hp
  have hp1' : p.1 ∈ s.entities := mem_stableSortBy.mp hp1
  constructor
  · intro h
    simp only [Function.comp_apply, beq_iff_eq, Prod.ext_iff] at h ⊢
    obtain ⟨hkey, _⟩ := h
    obtain ⟨he1, he2⟩ := key_inj (hplus p.1 hp1') (hplus _ hminmem) hkey
    exact ⟨he1, he2⟩
  · intro h
    simp only [beq_iff_eq, Prod.ext_iff] at h
    simp only [Function.comp_apply, beq_iff_eq, Prod.ext_iff]
    exact ⟨by rw [h.1, h.2], trivial⟩

/-- C8 witness: in a concrete two-snippet corpus, the snippet holding both
"harry" and "ron" appears exactly once under the sorted pair key, queried
with the entities in reversed order. -/
theorem buildCooccurrenceIndex_pair_once_witness :
    ([c8Snippet, c8Snippet2].map (fun t => t.id)).Nodup ∧
    "ron" ∈ c8Snippet.entities ∧ "harry" ∈ c8Snippet.entities ∧
    ((bucketOf (buildCooccurrenceIndex [c8Snippet, c8Snippet2])
      (strMin "ron" "harry" ++ "+" ++ strMax "ron" "harry")).count c8Snippet.id) = 1 :=
  ⟨by decide, by decide, by decide,
   buildCooccurrenceIndex_pair_once [c8Snippet, c8Snippet2] c8Snippet "ron" "harry"
     (by decide) (by decide) (by decide) (by decide) (by decide) (by decide) (by decide)⟩

/-! Lemmas about the counts dictionaries (claim C10). -/

theorem countsGet_isSome_iff {m : Counts} {k : String} :
    (countsGet m k).isSome ↔ k ∈ m.map (fun p => p.1) := by
  unfold countsGet
  rw [Option.isSome_map']
  rw [List.find?_isSome]
  constructor
  · rintro ⟨p, hp, hb⟩
    exact List.mem_map.mpr ⟨p, hp, beq_iff_eq.mp hb⟩
  · intro h
    obtain ⟨p, hp, he⟩ := List.mem_map.mp h
    exact ⟨p, hp, beq_iff_eq.mpr he⟩

theorem faGet_isSome_iff {m : List (String × Appearance)} {k : String} :
    (faGet m k).isSome ↔ k ∈ m.map (fun p => p.1) := by
  unfold faGet
  rw [Option.isSome_map']
  rw [List.find?_isSome]
  constructor
  · rintro ⟨p, hp, hb⟩
    exact List.mem_map.mpr ⟨p, hp, beq_iff_eq.mp hb⟩
  · intro h
    obtain ⟨p, hp, he⟩ := List.mem_map.mp h
    exact ⟨p, hp, beq_iff_eq.mpr he⟩

theorem keys_alIncrBy (m : Counts) (k : String) (d : Nat) :
    (alIncrBy m k d).map (fun p => p.1) = m.map (fun p => p.1) ∨
    (alIncrBy m k d).map (fun p => p.1) = m.map (fun p => p.1) ++ [k] := by
  unfold alIncrBy
  by_cases h : m.any (fun p => p.1 == k)
  · rw [if_pos h]
    left
    rw [List.map_map]
    refine List.map_congr_left ?_
    intro p _
    by_cases hb : p.1 = k <;> simp [hb]
  · rw [if_neg h]
    right
    simp

theorem countsGet_alIncrBy_isSome {m : Counts} {k k' : String} {d : Nat} :
    (countsGet (alIncrBy m k d) k').isSome ↔ (countsGet m k').isSome ∨ k' = k := by
  rw [countsGet_isSome_iff, countsGet_isSome_iff]
  rcases keys_alIncrBy m k d with h | h
  · rw [h]
    constructor
    · exact Or.inl
    · intro hc
      rcases hc with hc | rfl
      · exact hc
      · -- the update branch was taken, so k is a key of m
        by_contra hk
        have : ¬ m.any (fun p => p.1 == k') = true := by
          simp only [List.any_eq_true, beq_iff_eq, not_exists]
          intro p hp
          exact hk (hp.2 ▸ List.mem_map.mpr ⟨p, hp.1, rfl⟩)
        unfold alIncrBy at h
        rw [if_neg this] at h
        have hlen := congrArg List.length h
        simp at hlen
  · rw [h, List.mem_append, List.mem_singleton]

theorem countsSum_update {k : String} (d : Nat) : ∀ {m : Counts},
    (m.map (fun p => p.1)).Nodup → m.any (fun p => p.1 == k) = true →
    countsSum (m.map (fun p => if p.1 == k then (p.1, p.2 + d) else p)) = countsSum m + d := by
  intro m
  induction m with
  | nil => intro _ hany; simp at hany
  | cons p rest ih =>
    intro hnd hany
    rw [List.map_cons, List.nodup_cons] at hnd
    obtain ⟨hheadp, hndrest⟩ := hnd
    by_cases hb : p.1 == k
    · have hkeq : p.1 = k := beq_iff_eq.mp hb
      have hrest : rest.map (fun q => if q.1 == k then (q.1, q.2 + d) else q) = rest := by
        conv_rhs => rw [show rest = rest.map id from (List.map_id rest).symm]
        refine List.map_congr_left ?_
        intro q hq
        have hq1 : ¬ (q.1 == k) = true := by
          intro hc
          apply hheadp
          have hqp : p.1 = q.1 := by rw [hkeq, beq_iff_eq.mp hc]
          rw [hqp]
          exact List.mem_map.mpr ⟨q, hq, rfl⟩
        rw [if_neg hq1]
        rfl
      unfold countsSum
      simp only [List.map_cons, if_pos hb, hrest, List.sum_cons]
      omega
    · have hany' : rest.any (fun q => q.1 == k) = true := by
        rcases List.any_eq_true.mp hany with ⟨q, hq, hqb⟩
        rcases List.mem_cons.mp hq with rfl | hq
        · exact absurd hqb (by simpa using hb)
        · exact List.any_eq_true.mpr ⟨q, hq, hqb⟩
      have hih := ih hndrest hany'
      unfold countsSum at hih ⊢
      simp only [List.map_cons, if_neg hb, List.sum_cons]
      omega

theorem countsSum_alIncrBy {m : Counts} (hnd : (m.map (fun p => p.1)).Nodup)
    (k : String) (d : Nat) :
    countsSum (alIncrBy m k d) = countsSum m + d := by
  unfold alIncrBy
  by_cases h : m.any (fun p => p.1 == k)
  · rw [if_pos h]
    exact countsSum_update d hnd h
  · rw [if_neg h]
    unfold countsSum
    simp

theorem keysNodup_alIncrBy {m : Counts} (hnd : (m.map (fun p => p.1)).Nodup)
    (k : String) (d : Nat) :
    ((alIncrBy m k d).map (fun p => p.1)).Nodup := by
  rcases keys_alIncrBy m k d with h | h
  · rw [h]; exact hnd
  · rw [h]
    have hknotin : k ∉ m.map (fun p => p.1) := by
      intro hc
      obtain ⟨p, hp, he⟩ := List.mem_map.mp hc
      have : m.any (fun p => p.1 == k) = true :=
        List.any_eq_true.mpr ⟨p, hp, beq_iff_eq.mpr he⟩
      unfold alIncrBy at h
      rw [if_pos this] at h
      have hlen := congrArg List.length h
      simp at hlen
    rw [List.nodup_append]
    refine ⟨hnd, List.nodup_singleton k, ?_⟩
    intro a ha hb
    rw [List.mem_singleton] at hb
    exact hknotin (hb ▸ ha)

theorem extractInv_recordMention {st : ExtractState} (h : extractInv st)
    (lineIndex : Nat) (pn : LinePN) : extractInv (recordMention st lineIndex pn) := by
  obtain ⟨hnd, hsum, hposs, hss, hfa⟩ := h
  unfold extractInv recordMention
  dsimp only
  refine ⟨keysNodup_alIncrBy hnd _ 1, ?_, ?_, ?_, ?_⟩
  · rw [countsSum_alIncrBy hnd]
    rw [List.length_append, hsum]
    rfl
  · intro k hk
    rw [countsGet_alIncrBy_isSome]
    by_cases hp : pn.isPossessive
    · rw [if_pos hp] at hk
      rcases countsGet_alIncrBy_isSome.mp hk with hk | rfl
      · exact Or.inl (hposs k hk)
      · exact Or.inr rfl
    · rw [if_neg hp] at hk
      exact Or.inl (hposs k hk)
  · intro k hk
    rw [countsGet_alIncrBy_isSome]
    by_cases hp : pn.isAtSentenceStart
    · rw [if_pos hp] at hk
      rcases countsGet_alIncrBy_isSome.mp hk with hk | rfl
      · exact Or.inl (hss k hk)
      · exact Or.inr rfl
    · rw [if_neg hp] at hk
      exact Or.inl (hss k hk)
  · intro k hk
    rw [countsGet_alIncrBy_isSome]
    by_cases hf : (faGet st.firstAppearances pn.normalized).isSome
    · rw [if_pos hf] at hk
      exact Or.inl (hfa k hk)
    · rw [if_neg hf] at hk
      rw [faGet_isSome_iff, List.map_append, List.mem_append] at hk
      rcases hk with hk | hk
      · exact Or.inl (hfa k (faGet_isSome_iff.mpr hk))
      · rw [List.map_singleton, List.mem_singleton] at hk
        exact Or.inr hk

theorem extractInv_foldRecord (lineIndex : Nat) :
    ∀ (pns : List LinePN) (st : ExtractState), extractInv st →
      extractInv (pns.foldl (fun st pn => recordMention st lineIndex pn) st) := by
  intro pns
  induction pns with
  | nil => intro st h; exact h
  | cons pn rest ih =>
    intro st h
    exact ih _ (extractInv_recordMention h lineIndex pn)

theorem extractInv_extractLineStep (cfg : ExtractionConfig) (p : Nat × String)
    {st : ExtractState} (h : extractInv st) : extractInv (extractLineStep cfg st p) := by
  obtain ⟨lineIndex, line⟩ := p
  unfold extractLineStep
  dsimp only
  split
  · exact h
  · split
    · exact h
    · split
      · exact h
      · split
        · exact h
        · exact extractInv_foldRecord lineIndex _ st h

theorem extractInv_foldLines (cfg : ExtractionConfig) :
    ∀ (lines : List (Nat × String)) (st : ExtractState), extractInv st →
      extractInv (lines.foldl (extractLineStep cfg) st) := by
  intro lines
  induction lines with
  | nil => intro st h; exact h
  | cons p rest ih =>
    intro st h
    exact ih _ (extractInv_extractLineStep cfg p h)

/-- C10: the result of `extractProperNouns` is internally consistent on every
input: `metadata.totalMentions` equals the length of `mentions`, the values of
`mentionCounts` sum to that same length, and every key of `possessiveCounts`,
`sentenceStartCounts` and `firstAppearances` is a key of `mentionCounts`. -/
theorem extractProperNouns_consistent (cfg : ExtractionConfig) (text : String) :
    (extractProperNouns cfg text).metadata.totalMentions =
      (extractProperNouns cfg text).mentions.length ∧
    countsSum (extractProperNouns cfg text).mentionCounts =
      (extractProperNouns cfg text).mentions.length ∧
    (∀ k, (countsGet (extractProperNouns cfg text).possessiveCounts k).isSome →
      (countsGet (extractProperNouns cfg text).mentionCounts k).isSome) ∧
    (∀ k, (countsGet (extractProperNouns cfg text).sentenceStartCounts k).isSome →
      (countsGet (extractProperNouns cfg text).mentionCounts k).isSome) ∧
    (∀ k, (faGet (extractProperNouns cfg text).firstAppearances k).isSome →
      (countsGet (extractProperNouns cfg text).mentionCounts k).isSome) := by
  have h0 : extractInv
      { inFrontmatter := false, currentChapter := 0, chapterTitle := "", paragraphIndex := 0,
        mentions := [], mentionCounts := [], possessiveCounts := [],
        sentenceStartCounts := [], firstAppearances := [] } := by
    refine ⟨List.nodup_nil, rfl, ?_, ?_, ?_⟩ <;>
      · intro k hk
        simp [countsGet, faGet] at hk
  have h := extractInv_foldLines cfg ((splitRetain '\n' text.data []).enum) _ h0
  obtain ⟨hnd, hsum, hposs, hss, hfa⟩ := h
  unfold extractProperNouns
  dsimp only
  exact ⟨rfl, hsum, hposs, hss, hfa⟩

/-! Lemmas about `dedupeSnippets` on already-deduplicated input (claim C7). -/

theorem processGroup_no_merge : ∀ (rest : List Snippet) (cur : Snippet),
    List.Chain' snipGapGT (cur :: rest) → processGroup cur rest = cur :: rest := by
  intro rest
  induction rest with
  | nil => intro cur _; rfl
  | cons nxt rest ih =>
    intro cur hc
    have h1 : snipGapGT cur nxt := (List.chain'_cons.mp hc).1
    have h2 : List.Chain' snipGapGT (nxt :: rest) := (List.chain'_cons.mp hc).2
    have hgt : ¬ ((sentStart nxt : Int) - (sentEnd cur : Int) ≤ 2) := by
      unfold snipGapGT at h1
      omega
    simp only [processGroup, if_neg hgt]
    rw [ih nxt h2]

theorem dedupeFold_eq :
    ∀ (groups : List ((Nat × Nat) × List Snippet)),
      (∀ kg ∈ groups, List.Chain' snipGapGT (stableSortBy bySentStartPre kg.2)) →
      ∀ acc, groups.foldl dedupeGroupStep acc
        = acc ++ (groups.map (fun kg => stableSortBy bySentStartPre kg.2)).flatten := by
  intro groups
  induction groups with
  | nil => intro _ acc; simp
  | cons kg rest ih =>
    intro h acc
    have hkg := h kg (List.mem_cons_self kg rest)
    have hrest : ∀ kg' ∈ rest, List.Chain' snipGapGT (stableSortBy bySentStartPre kg'.2) :=
      fun kg' hm => h kg' (List.mem_cons_of_mem kg hm)
    have hstep : dedupeGroupStep acc kg = acc ++ stableSortBy bySentStartPre kg.2 := by
      unfold dedupeGroupStep
      cases hs : stableSortBy bySentStartPre kg.2 with
      | nil => simp
      | cons first rest' =>
        show acc ++ processGroup first rest' = acc ++ first :: rest'
        rw [processGroup_no_merge rest' first (hs ▸ hkg)]
    rw [List.foldl_cons, ih hrest, hstep, List.map_cons, List.flatten_cons, List.append_assoc]

theorem flatten_addToBucket [DecidableEq κ] (k : κ) (x : α) :
    ∀ (groups : List (κ × List α)),
      List.Perm (((addToBucket k x groups).map (fun kg => kg.2)).flatten)
        (((groups.map (fun kg => kg.2)).flatten) ++ [x]) := by
  intro groups
  induction groups with
  | nil => simp [addToBucket]
  | cons kg rest ih =>
    obtain ⟨k', g⟩ := kg
    unfold addToBucket
    by_cases h : k' = k
    · rw [if_pos h]
      simp only [List.map_cons, List.flatten_cons, List.append_assoc]
      exact List.Perm.append_left g (List.perm_append_comm)
    · rw [if_neg h]
      simp only [List.map_cons, List.flatten_cons, List.append_assoc]
      exact List.Perm.append_left g ih

theorem foldl_groupBy_flatten :
    ∀ (l : List Snippet) (groups : List ((Nat × Nat) × List Snippet)),
      List.Perm
        (((l.foldl (fun gs s => addToBucket (snippetKey s) s gs) groups).map
          (fun kg => kg.2)).flatten)
        (((groups.map (fun kg => kg.2)).flatten) ++ l) := by
  intro l
  induction l with
  | nil => intro groups; simp
  | cons s t ih =>
    intro groups
    rw [List.foldl_cons]
    refine (ih (addToBucket (snippetKey s) s groups)).trans ?_
    refine ((flatten_addToBucket (snippetKey s) s groups).append_right t).trans ?_
    rw [List.append_assoc, List.singleton_append]

theorem flatten_groupBySnippets (snips : List Snippet) :
    List.Perm (((groupBySnippets snips).map (fun kg => kg.2)).flatten) snips := by
  have h := foldl_groupBy_flatten snips []
  simpa [groupBySnippets] using h

theorem flatten_sorted_perm (groups : List ((Nat × Nat) × List Snippet)) :
    List.Perm ((groups.map (fun kg => stableSortBy bySentStartPre kg.2)).flatten)
      ((groups.map (fun kg => kg.2)).flatten) := by
  induction groups with
  | nil => simp
  | cons kg rest ih =>
    simp only [List.map_cons, List.flatten_cons]
    exact (stableSortBy_perm bySentStartPre kg.2).append ih

theorem addToBucket_keys [DecidableEq κ] (k : κ) (x : α) :
    ∀ (groups : List (κ × List α)),
      (addToBucket k x groups).map (fun kg => kg.1) = groups.map (fun kg => kg.1) ∨
      ((addToBucket k x groups).map (fun kg => kg.1)
          = groups.map (fun kg => kg.1) ++ [k] ∧ k ∉ groups.map (fun kg => kg.1)) := by
  intro groups
  induction groups with
  | nil => right; exact ⟨rfl, by simp⟩
  | cons kg rest ih =>
    obtain ⟨k', g⟩ := kg
    unfold addToBucket
    by_cases h : k' = k
    · left
      rw [if_pos h]
      simp only [List.map_cons]
    · rw [if_neg h]
      rcases ih with ih | ⟨ih1, ih2⟩
      · left
        simp only [List.map_cons, ih]
      · right
        refine ⟨by simp only [List.map_cons, ih1, List.cons_append], ?_⟩
        simp only [List.map_cons, List.mem_cons]
        rintro (rfl | hc)
        · exact h rfl
        · exact ih2 hc

theorem groupBySnippets_keys_nodup (snips : List Snippet) :
    ((groupBySnippets snips).map (fun kg => kg.1)).Nodup := by
  suffices h : ∀ (l : List Snippet) (groups : List ((Nat × Nat) × List Snippet)),
      (groups.map (fun kg => kg.1)).Nodup →
      ((l.foldl (fun gs s => addToBucket (snippetKey s) s gs) groups).map
        (fun kg => kg.1)).Nodup by
    exact h snips [] List.nodup_nil
  intro l
  induction l with
  | nil => intro groups h; exact h
  | cons s t ih =>
    intro groups h
    rw [List.foldl_cons]
    refine ih _ ?_
    rcases addToBucket_keys (snippetKey s) s groups with hk | ⟨hk1, hk2⟩
    · rw [hk]; exact h
    · rw [hk1, List.nodup_append]
      refine ⟨h, List.nodup_singleton _, ?_⟩
      intro a ha hb
      rw [List.mem_singleton] at hb
      exact hk2 (hb ▸ ha)

theorem addToBucket_mem_mono [DecidableEq κ] {k₀ : κ} {g₀ : List α} {x₀ : α} (k : κ) (y : α) :
    ∀ (groups : List (κ × List α)), (k₀, g₀) ∈ groups → x₀ ∈ g₀ →
      ∃ g, (k₀, g) ∈ addToBucket k y groups ∧ x₀ ∈ g := by
  intro groups
  induction groups with
  | nil => intro h _; cases h
  | cons kg rest ih =>
    obtain ⟨k', g'⟩ := kg
    intro hm hx
    unfold addToBucket
    by_cases h : k' = k
    · rw [if_pos h]
      rcases List.mem_cons.mp hm with he | hm'
      · injection he with hk hg
        subst hk
        subst hg
        exact ⟨g₀ ++ [y], List.mem_cons_self _ _, List.mem_append_left _ hx⟩
      · exact ⟨g₀, List.mem_cons_of_mem _ hm', hx⟩
    · rw [if_neg h]
      rcases List.mem_cons.mp hm with he | hm'
      · injection he with hk hg
        subst hk
        subst hg
        exact ⟨g₀, List.mem_cons_self _ _, hx⟩
      · obtain ⟨g, hg1, hg2⟩ := ih hm' hx
        exact ⟨g, List.mem_cons_of_mem _ hg1, hg2⟩

theorem addToBucket_mem_self [DecidableEq κ] (k : κ) (x : α) :
    ∀ (groups : List (κ × List α)), ∃ g, (k, g) ∈ addToBucket k x groups ∧ x ∈ g := by
  intro groups
  induction groups with
  | nil => exact ⟨[x], by simp [addToBucket], by simp⟩
  | cons kg rest ih =>
    obtain ⟨k', g'⟩ := kg
    unfold addToBucket
    by_cases h : k' = k
    · rw [if_pos h]
      subst h
      exact ⟨g' ++ [x], List.mem_cons_self _ _, List.mem_append_right _ (by simp)⟩
    · rw [if_neg h]
      obtain ⟨g, h1, h2⟩ := ih
      exact ⟨g, List.mem_cons_of_mem _ h1, h2⟩

theorem groupBySnippets_mem_bucket (snips : List Snippet) :
    ∀ x ∈ snips, ∃ g, (snippetKey x, g) ∈ groupBySnippets snips ∧ x ∈ g := by
  suffices h : ∀ (l : List Snippet) (groups : List ((Nat × Nat) × List Snippet)) (x : Snippet),
      (x ∈ l ∨ ∃ g, (snippetKey x, g) ∈ groups ∧ x ∈ g) →
      ∃ g, (snippetKey x, g) ∈ l.foldl (fun gs s => addToBucket (snippetKey s) s gs) groups ∧
        x ∈ g by
    intro x hx
    exact h snips [] x (Or.inl hx)
  intro l
  induction l with
  | nil =>
    intro groups x h
    rcases h with h | h
    · cases h
    · exact h
  | cons s t ih =>
    intro groups x h
    rw [List.foldl_cons]
    refine ih _ x ?_
    rcases h with h | h
    · rcases List.mem_cons.mp h with rfl | h'
      · exact Or.inr (addToBucket_mem_self (snippetKey x) x groups)
      · exact Or.inl h'
    · obtain ⟨g, h1, h2⟩ := h
      exact Or.inr (addToBucket_mem_mono (snippetKey s) s groups h1 h2)

theorem bucket_unique [DecidableEq κ] :
    ∀ (groups : List (κ × List α)), ((groups.map (fun kg => kg.1)).Nodup) →
      ∀ {k : κ} {g₁ g₂ : List α}, (k, g₁) ∈ groups → (k, g₂) ∈ groups → g₁ = g₂ := by
  intro groups
  induction groups with
  | nil => intro _ k g₁ g₂ h _; cases h
  | cons kg rest ih =>
    obtain ⟨k', g'⟩ := kg
    intro hnd k g₁ g₂ h1 h2
    rw [List.map_cons, List.nodup_cons] at hnd
    obtain ⟨hk', hndrest⟩ := hnd
    rcases List.mem_cons.mp h1 with he1 | hm1 <;> rcases List.mem_cons.mp h2 with he2 | hm2
    · injection he1 with ha hb
      injection he2 with hc hd
      exact hb.trans hd.symm
    · injection he1 with ha hb
      exact absurd (List.mem_map.mpr ⟨(k, g₂), hm2, ha⟩) hk'
    · injection he2 with hc hd
      exact absurd (List.mem_map.mpr ⟨(k, g₁), hm1, hc⟩) hk'
    · exact ih hndrest hm1 hm2

theorem groupBySnippets_bucket_subset {snips : List Snippet}
    {kg : (Nat × Nat) × List Snippet} (hkg : kg ∈ groupBySnippets snips)
    {y : Snippet} (hy : y ∈ kg.2) : y ∈ snips := by
  refine (flatten_groupBySnippets snips).mem_iff.mp ?_
  exact List.mem_flatten.mpr ⟨kg.2, List.mem_map.mpr ⟨kg, hkg, rfl⟩, hy⟩

theorem chain_gap_pairwise : ∀ (l : List Snippet),
    (∀ s ∈ l, sentStart s ≤ sentEnd s) → List.Chain' snipGapGT l →
    List.Pairwise (fun a b => sentStart a < sentStart b) l := by
  intro l
  induction l with
  | nil => intro _ _; exact List.Pairwise.nil
  | cons a t ih =>
    intro hwf hc
    have hct : List.Chain' snipGapGT t := hc.tail
    have hpt := ih (fun s hs => hwf s (List.mem_cons_of_mem a hs)) hct
    refine List.Pairwise.cons ?_ hpt
    intro y hy
    cases t with
    | nil => cases hy
    | cons b t' =>
      have hab : snipGapGT a b := (List.chain'_cons.mp hc).1
      have hwa := hwf a (List.mem_cons_self a _)
      have ha : sentStart a < sentStart b := by
        unfold snipGapGT at hab
        omega
      rcases List.mem_cons.mp hy with rfl | hy'
      · exact ha
      · have hby : sentStart b < sentStart y := (List.pairwise_cons.mp hpt).1 y hy'
        omega

theorem docOrderPre_iff (a b : Snippet) : docOrderPre a b = true ↔
    (a.chapter < b.chapter ∨
     (a.chapter = b.chapter ∧
       a.location.paragraphIndex < b.location.paragraphIndex) ∨
     (a.chapter = b.chapter ∧
       a.location.paragraphIndex = b.location.paragraphIndex ∧
       sentStart a ≤ sentStart b)) := by
  unfold docOrderPre
  by_cases h1 : a.chapter = b.chapter
  · by_cases h2 : a.location.paragraphIndex = b.location.paragraphIndex
    · simp [h1, h2] <;> omega
    · simp [h1, h2] <;> omega
  · simp [h1] <;> omega

theorem docOrderPre_total (a b : Snippet) :
    docOrderPre a b = true ∨ docOrderPre b a = true := by
  rw [docOrderPre_iff, docOrderPre_iff]
  omega

theorem docOrderPre_trans (a b c : Snippet) (hab : docOrderPre a b = true)
    (hbc : docOrderPre b c = true) : docOrderPre a c = true := by
  rw [docOrderPre_iff] at hab hbc ⊢
  omega

theorem docOrderPre_antisym {a b : Snippet} (h1 : docOrderPre a b = true)
    (h2 : docOrderPre b a = true) :
    a.chapter = b.chapter ∧ a.location.paragraphIndex = b.location.paragraphIndex ∧
      sentStart a = sentStart b := by
  rw [docOrderPre_iff] at h1 h2
  omega

/-- C7: on an already-deduplicated snippet list — every snippet's sentence
range is well-formed, and within every chapter/paragraph group the snippets,
ordered by start sentence, all have sentence gaps greater than 2 —
`dedupeSnippets` merges nothing: it returns the same snippets sorted into
document order, with only the ids reassigned sequentially. -/
theorem dedupeSnippets_idempotent (snips : List Snippet)
    (hwf : ∀ s ∈ snips, sentStart s ≤ sentEnd s)
    (hded : ∀ kg ∈ groupBySnippets snips,
      List.Chain' snipGapGT (stableSortBy bySentStartPre kg.2)) :
    dedupeSnippets snips = reassignIds (stableSortBy docOrderPre snips) := by
  have hanti : ∀ a b, a ∈ snips → b ∈ snips →
      docOrderPre a b = true → docOrderPre b a = true → a = b := by
    intro a b ha hb hab hba
    obtain ⟨hch, hpar, hsent⟩ := docOrderPre_antisym hab hba
    have hkey : snippetKey a = snippetKey b := by
      unfold snippetKey
      rw [hch, hpar]
    obtain ⟨g₁, hg₁, ha₁⟩ := groupBySnippets_mem_bucket snips a ha
    obtain ⟨g₂, hg₂, hb₂⟩ := groupBySnippets_mem_bucket snips b hb
    rw [hkey] at hg₁
    have hgg : g₁ = g₂ :=
      bucket_unique (groupBySnippets snips) (groupBySnippets_keys_nodup snips) hg₁ hg₂
    subst hgg
    have hchain := hded _ hg₁
    have hwfg : ∀ s ∈ stableSortBy bySentStartPre g₁, sentStart s ≤ sentEnd s := by
      intro s hs
      have hsg : s ∈ g₁ := (stableSortBy_perm bySentStartPre g₁).mem_iff.mp hs
      exact hwf s (groupBySnippets_bucket_subset hg₁ hsg)
    have hpw := chain_gap_pairwise _ hwfg hchain
    by_contra hne
    have hmem₁ : a ∈ stableSortBy bySentStartPre g₁ :=
      (stableSortBy_perm bySentStartPre g₁).mem_iff.mpr ha₁
    have hmem₂ : b ∈ stableSortBy bySentStartPre g₁ :=
      (stableSortBy_perm bySentStartPre g₁).mem_iff.mpr hb₂
    rcases pairwise_ne_or hpw hmem₁ hmem₂ hne with h | h <;> omega
  have hperm₀ : List.Perm (((groupBySnippets snips).map
      (fun kg => stableSortBy bySentStartPre kg.2)).flatten) snips :=
    (flatten_sorted_perm (groupBySnippets snips)).trans (flatten_groupBySnippets snips)
  have hmain : stableSortBy docOrderPre ((groupBySnippets snips).foldl dedupeGroupStep [])
      = stableSortBy docOrderPre snips := by
    rw [dedupeFold_eq (groupBySnippets snips) hded [], List.nil_append]
    refine perm_pairwise_eq (R := fun a b => docOrderPre a b = true) ?_ ?_ ?_ ?_
    · exact (stableSortBy_perm _ _).trans (hperm₀.trans (stableSortBy_perm docOrderPre snips).symm)
    · exact stableSortBy_pairwise docOrderPre_total docOrderPre_trans _
    · exact stableSortBy_pairwise docOrderPre_total docOrderPre_trans _
    · intro a b ha hb hab hba
      refine hanti a b ?_ ?_ hab hba
      · exact hperm₀.mem_iff.mp ((stableSortBy_perm _ _).mem_iff.mp ha)
      · exact hperm₀.mem_iff.mp ((stableSortBy_perm _ _).mem_iff.mp hb)
  rcases snips with _ | ⟨s₀, t₀⟩
  · rfl
  · exact congrArg reassignIds hmain

/-- C7 witness: a concrete already-deduplicated corpus — two snippets five
sentences apart in one paragraph and one in another — passes through
`dedupeSnippets` unchanged except for document ordering and fresh ids. -/
theorem dedupeSnippets_idempotent_witness :
    (∀ s ∈ [c7B, c7C, c7A], sentStart s ≤ sentEnd s) ∧
    (∀ kg ∈ groupBySnippets [c7B, c7C, c7A],
      List.Chain' snipGapGT (stableSortBy bySentStartPre kg.2)) ∧
    dedupeSnippets [c7B, c7C, c7A]
      = reassignIds (stableSortBy docOrderPre [c7B, c7C, c7A]) :=
  ⟨by decide, by decide,
   dedupeSnippets_idempotent [c7B, c7C, c7A] (by decide) (by decide)⟩

/-! Lemmas for claim C9: no surface form joins two groups. -/

theorem endsPossessive_append (b : String) : endsPossessive (b ++ "'s") = true := by
  unfold endsPossessive strEndsWith
  have hd : (b ++ "'s").data = b.data ++ ['\'', 's'] := rfl
  rw [hd, List.reverse_append]
  rw [show ((['\'', 's'] : List Char).reverse) = ['s', '\''] from rfl]
  rw [List.isPrefixOf_iff_prefix]
  exact ⟨b.data.reverse, rfl⟩

theorem append_poss_cancel {b c : String} (h : b ++ "'s" = c ++ "'s") : b = c := by
  have hd : b.data ++ ['\'', 's'] = c.data ++ ['\'', 's'] := congrArg String.data h
  have hbc : b.data = c.data := List.append_cancel_right hd
  exact congrArg String.mk hbc

theorem ne_poss_of_clean {f : String} (h : endsPossessive f = false) (b : String) :
    f ≠ b ++ "'s" := by
  intro he
  rw [he, endsPossessive_append] at h
  cases h

theorem contains_false_not_mem {l : List String} {x : String}
    (h : l.contains x = false) : x ∉ l := by
  simp only [List.contains, List.elem_eq_mem, decide_eq_false_iff_not] at h
  exact h

theorem ainv_push_clean {a : List String} (h : AInv a) {x : String}
    (hx : endsPossessive x = false) : AInv (a ++ [x]) := by
  intro f hf
  rcases List.mem_append.mp hf with hf | hf
  · rcases h f hf with h' | ⟨b, h1, h2, h3⟩
    · exact Or.inl h'
    · exact Or.inr ⟨b, h1, List.mem_append_left _ h2, h3⟩
  · rw [List.mem_singleton] at hf
    subst hf
    exact Or.inl hx

theorem ainv_push_poss {a : List String} (h : AInv a) {b : String}
    (hb : b ∈ a) (hcl : endsPossessive b = false) : AInv (a ++ [b ++ "'s"]) := by
  intro f hf
  rcases List.mem_append.mp hf with hf | hf
  · rcases h f hf with h' | ⟨c, h1, h2, h3⟩
    · exact Or.inl h'
    · exact Or.inr ⟨c, h1, List.mem_append_left _ h2, h3⟩
  · rw [List.mem_singleton] at hf
    subst hf
    exact Or.inr ⟨b, rfl, List.mem_append_left _ hb, hcl⟩

theorem poss_not_mem {a : List String} (h : AInv a) {x : String}
    (hx : x ∉ a) (hcl : endsPossessive x = false) : (x ++ "'s") ∉ a := by
  intro hc
  rcases h _ hc with h' | ⟨b, h1, h2, h3⟩
  · rw [endsPossessive_append] at h'
    cases h'
  · refine hx ?_
    rw [append_poss_cancel h1]
    exact h2

theorem poss_fresh {a : List String} (h : AInv a) {x : String}
    (hx : x ∉ a) (hcl : endsPossessive x = false) : (x ++ "'s") ∉ (a ++ [x]) := by
  intro hc
  rcases List.mem_append.mp hc with hc | hc
  · exact poss_not_mem h hx hcl hc
  · rw [List.mem_singleton] at hc
    exact ne_poss_of_clean hcl x hc.symm

theorem ginv_push {base : List String} {g g' : RawGroup} {a : List String} {f : String}
    (h : GInv base (g, a)) (hg' : groupForms g' = groupForms g ++ [f])
    (hfresh : f ∉ a) (hainv : AInv (a ++ [f])) :
    GInv base (g', a ++ [f]) := by
  obtain ⟨h1, h2, h3, h4, h5⟩ := h
  refine ⟨?_, ?_, hainv, ?_, ?_⟩
  · rw [hg', List.nodup_append]
    refine ⟨h1, List.nodup_singleton _, ?_⟩
    intro x hx hx2
    rw [List.mem_singleton] at hx2
    exact hfresh (hx2 ▸ h2 x hx)
  · rw [hg']
    intro x hx
    rcases List.mem_append.mp hx with hx | hx
    · exact List.mem_append_left _ (h2 x hx)
    · rw [List.mem_singleton] at hx
      subst hx
      exact List.mem_append_right _ (by simp)
  · intro x hx
    exact List.mem_append_left _ (h4 x hx)
  · rw [hg']
    intro x hx
    rcases List.mem_append.mp hx with hx | hx
    · exact h5 x hx
    · rw [List.mem_singleton] at hx
      subst hx
      intro hb
      exact hfresh (h4 _ hb)

theorem linkPart_ginv {forms : CategorizedForms} {mc : Counts} {base : List String}
    {ga : RawGroup × List String} (h : GInv base ga) {part : String}
    (hp : endsPossessive part = false) :
    GInv base (linkPart forms mc ga part) := by
  obtain ⟨g, a⟩ := ga
  unfold linkPart
  dsimp only
  split
  · exact h
  next hc =>
    have hpm : part ∉ a := contains_false_not_mem (by simpa using hc)
    split
    · exact h
    next singleMatch hfind =>
      split
      · exact h
      next hcnt =>
        have hG1 : GInv base
            ({ g with variants := g.variants ++
                [{ form := part, count := jsOrNat (countsGet mc part) singleMatch.count }] },
             a ++ [part]) :=
          ginv_push h (by simp [groupForms]) hpm (ainv_push_clean h.2.2.1 hp)
        split
        next hposs =>
          have hfr : (part ++ "'s") ∉ a ++ [part] := poss_fresh h.2.2.1 hpm hp
          have hA2 : AInv ((a ++ [part]) ++ [part ++ "'s"]) :=
            ainv_push_poss hG1.2.2.1 (List.mem_append_right _ (by simp)) hp
          exact ginv_push hG1 (by simp [groupForms]) hfr hA2
        next hposs => exact hG1

theorem linkTitled_ginv {mc : Counts} {parts : List String} {base : List String}
    {ga : RawGroup × List String} (h : GInv base ga) {tn : TitledNameForm}
    (ht : endsPossessive tn.form = false) :
    GInv base (linkTitled mc parts ga tn) := by
  obtain ⟨g, a⟩ := ga
  unfold linkTitled
  dsimp only
  split
  · exact h
  next hc =>
    split
    next hl =>
      exact ginv_push h (by simp [groupForms])
        (contains_false_not_mem (by simpa using hc)) (ainv_push_clean h.2.2.1 ht)
    next hl => exact h

theorem foldl_linkPart_ginv {forms : CategorizedForms} {mc : Counts} {base : List String} :
    ∀ (parts : List String) (ga : RawGroup × List String), GInv base ga →
      (∀ p ∈ parts, endsPossessive p = false) →
      GInv base (parts.foldl (linkPart forms mc) ga) := by
  intro parts
  induction parts with
  | nil => intro ga h _; exact h
  | cons p t ih =>
    intro ga h hP
    exact ih _ (linkPart_ginv h (hP p (List.mem_cons_self _ _)))
      (fun x hx => hP x (List.mem_cons_of_mem _ hx))

theorem foldl_linkTitled_ginv {mc : Counts} {parts : List String} {base : List String} :
    ∀ (titles : List TitledNameForm) (ga : RawGroup × List String), GInv base ga →
      (∀ tn ∈ titles, endsPossessive tn.form = false) →
      GInv base (titles.foldl (linkTitled mc parts) ga) := by
  intro titles
  induction titles with
  | nil => intro ga h _; exact h
  | cons tn t ih =>
    intro ga h hP
    exact ih _ (linkTitled_ginv h (hP tn (List.mem_cons_self _ _)))
      (fun x hx => hP x (List.mem_cons_of_mem _ hx))

theorem build_finish {st : BuildState} (h : BInv st) {ga : RawGroup × List String}
    (hg : GInv st.assigned ga) :
    BInv { groups := st.groups ++ [ga.1], assigned := ga.2 } := by
  obtain ⟨b1, b2, b3⟩ := h
  obtain ⟨g1, g2, g3, g4, g5⟩ := hg
  refine ⟨?_, ?_, g3⟩
  · simp only [List.map_append, List.map_cons, List.map_nil, List.flatten_append,
      List.flatten_cons, List.flatten_nil, List.append_nil]
    rw [List.nodup_append]
    refine ⟨b1, g1, ?_⟩
    intro x hx hx2
    exact g5 x hx2 (b2 x hx)
  · simp only [List.map_append, List.map_cons, List.map_nil, List.flatten_append,
      List.flatten_cons, List.flatten_nil, List.append_nil]
    intro f hf
    rcases List.mem_append.mp hf with hf | hf
    · exact g4 _ (b2 f hf)
    · exact g2 f hf

theorem fullNameStep_binv {forms : CategorizedForms} {mc : Counts}
    (htn : ∀ tn ∈ forms.titledNames, endsPossessive tn.form = false)
    {st : BuildState} (h : BInv st) {fn : FullNameForm}
    (hf1 : endsPossessive fn.form = false)
    (hf2 : ∀ p ∈ splitWs fn.form, endsPossessive p = false) :
    BInv (fullNameStep forms mc st fn) := by
  unfold fullNameStep
  dsimp only
  split
  · exact h
  next hc =>
    split
    · exact h
    next =>
      split
      · exact h
      next =>
        split
        · exact h
        next =>
          have hfresh : fn.form ∉ st.assigned := contains_false_not_mem (by simpa using hc)
          have hG0 : GInv st.assigned
              ({ canonicalName := fn.form,
                 variants := [{ form := fn.form,
                                count := jsOrNat (countsGet mc fn.form) fn.count }],
                 evidence := { isFullName := true, parts := splitWs fn.form } },
               st.assigned ++ [fn.form]) := by
            refine ⟨?_, ?_, ainv_push_clean h.2.2 hf1, ?_, ?_⟩
            · simp [groupForms]
            · intro f hf
              simp [groupForms] at hf
              subst hf
              exact List.mem_append_right _ (by simp)
            · intro x hx
              exact List.mem_append_left _ hx
            · intro f hf
              simp [groupForms] at hf
              subst hf
              exact hfresh
          exact build_finish h (foldl_linkTitled_ginv forms.titledNames _
            (foldl_linkPart_ginv (splitWs fn.form) _ hG0 hf2) htn)

theorem titledStep_binv {forms : CategorizedForms} {mc : Counts} {st : BuildState}
    (h : BInv st) {tn : TitledNameForm}
    (ht1 : endsPossessive tn.form = false) (ht2 : endsPossessive tn.name = false) :
    BInv (titledStep forms mc st tn) := by
  unfold titledStep
  dsimp only
  split
  · exact h
  next hc =>
    have hfresh : tn.form ∉ st.assigned := contains_false_not_mem (by simpa using hc)
    have hG0 : GInv st.assigned
        ({ canonicalName := tn.form,
           variants := [{ form := tn.form,
                          count := jsOrNat (countsGet mc tn.form) tn.count,
                          hasTitle := true }],
           evidence := { isTitledName := true, title := some tn.title,
                         titleType := tn.titleType } },
         st.assigned ++ [tn.form]) := by
      refine ⟨?_, ?_, ainv_push_clean h.2.2 ht1, ?_, ?_⟩
      · simp [groupForms]
      · intro f hf
        simp [groupForms] at hf
        subst hf
        exact List.mem_append_right _ (by simp)
      · intro x hx
        exact List.mem_append_left _ hx
      · intro f hf
        simp [groupForms] at hf
        subst hf
        exact hfresh
    split
    next hn =>
      exact build_finish h hG0
    next hn =>
      split
      next =>
        exact build_finish h hG0
      next singleMatch hfind =>
        have hnm : tn.name ∉ st.assigned ++ [tn.form] :=
          contains_false_not_mem (by simpa using hn)
        have hG1 : GInv st.assigned
            ({ canonicalName := tn.name,
               variants := [{ form := tn.form,
                              count := jsOrNat (countsGet mc tn.form) tn.count,
                              hasTitle := true }] ++
                 [{ form := tn.name,
                    count := jsOrNat (countsGet mc tn.name) singleMatch.count }],
               evidence := { isTitledName := true, title := some tn.title,
                             titleType := tn.titleType } },
             (st.assigned ++ [tn.form]) ++ [tn.name]) :=
          ginv_push hG0 (by simp [groupForms]) hnm (ainv_push_clean hG0.2.2.1 ht2)
        split
        next hposs =>
          have hfr : (tn.name ++ "'s") ∉ (st.assigned ++ [tn.form]) ++ [tn.name] :=
            poss_fresh hG0.2.2.1 hnm ht2
          exact build_finish h (ginv_push hG1 (by simp [groupForms]) hfr
            (ainv_push_poss hG1.2.2.1 (List.mem_append_right _ (by simp)) ht2))
        next hposs =>
          exact build_finish h hG1

theorem singleStep_binv {mc : Counts} {st : BuildState} (h : BInv st)
    {sn : SingleNameForm} (hs : endsPossessive sn.form = false) :
    BInv (singleStep mc st sn) := by
  unfold singleStep
  dsimp only
  split
  · exact h
  next hc =>
    split
    · exact h
    next =>
      have hfresh : sn.form ∉ st.assigned := contains_false_not_mem (by simpa using hc)
      have hG0 : GInv st.assigned
          ({ canonicalName := sn.form,
             variants := [{ form := sn.form,
                            count := jsOrNat (countsGet mc sn.form) sn.count }],
             evidence := { isSingleName := true } },
           st.assigned ++ [sn.form]) := by
        refine ⟨?_, ?_, ainv_push_clean h.2.2 hs, ?_, ?_⟩
        · simp [groupForms]
        · intro f hf
          simp [groupForms] at hf
          subst hf
          exact List.mem_append_right _ (by simp)
        · intro x hx
          exact List.mem_append_left _ hx
        · intro f hf
          simp [groupForms] at hf
          subst hf
          exact hfresh
      split
      next hposs =>
        have hfr : (sn.form ++ "'s") ∉ st.assigned ++ [sn.form] :=
          poss_fresh h.2.2 hfresh hs
        exact build_finish h (ginv_push hG0 (by simp [groupForms]) hfr
          (ainv_push_poss hG0.2.2.1 (List.mem_append_right _ (by simp)) hs))
      next hposs =>
        exact build_finish h hG0

theorem foldl_binv {β : Type} (step : BuildState → β → BuildState) (P : β → Prop)
    (hstep : ∀ st b, BInv st → P b → BInv (step st b)) :
    ∀ (l : List β) (st : BuildState), BInv st → (∀ b ∈ l, P b) →
      BInv (l.foldl step st) := by
  intro l
  induction l with
  | nil => intro st h _; exact h
  | cons b t ih =>
    intro st h hP
    exact ih _ (hstep st b h (hP b (List.mem_cons_self _ _)))
      (fun x hx => hP x (List.mem_cons_of_mem _ hx))

/-- C9: in the output of `buildEntityGroups`, no surface form is a variant of
two groups: once a form is claimed under an earlier linkage rule, later rules
never attach it to a second group (for inputs whose categorised forms, name
parts and single names are not themselves possessive-suffixed, as the
categoriser produces). -/
theorem buildEntityGroups_forms_disjoint (forms : CategorizedForms) (mentionCounts : Counts)
    (fas : List (String × Appearance))
    (hfn : ∀ fn ∈ forms.fullNames, endsPossessive fn.form = false ∧
      ∀ p ∈ splitWs fn.form, endsPossessive p = false)
    (htn : ∀ tn ∈ forms.titledNames, endsPossessive tn.form = false ∧
      endsPossessive tn.name = false)
    (hsn : ∀ sn ∈ forms.singleNames, endsPossessive sn.form = false) :
    List.Pairwise (fun g₁ g₂ => ∀ f, f ∈ g₁.variants.map (fun v => v.form) →
      f ∉ g₂.variants.map (fun v => v.form))
      (buildEntityGroups forms mentionCounts fas) := by
  have h0 : BInv { groups := [], assigned := [] } := by
    refine ⟨by simp, by simp, ?_⟩
    intro f hf
    simp at hf
  have h1 := foldl_binv (fullNameStep forms mentionCounts)
    (fun fn => endsPossessive fn.form = false ∧
      ∀ p ∈ splitWs fn.form, endsPossessive p = false)
    (fun st fn hst hP => fullNameStep_binv (fun tn htm => (htn tn htm).1) hst hP.1 hP.2)
    forms.fullNames _ h0 hfn
  have h2 := foldl_binv (titledStep forms mentionCounts)
    (fun tn => endsPossessive tn.form = false ∧ endsPossessive tn.name = false)
    (fun st tn hst hP => titledStep_binv hst hP.1 hP.2)
    forms.titledNames _ h1 htn
  have h3 := foldl_binv (singleStep mentionCounts)
    (fun sn => endsPossessive sn.form = false)
    (fun st sn hst hP => singleStep_binv hst hP)
    forms.singleNames _ h2 hsn
  unfold buildEntityGroups
  dsimp only
  obtain ⟨hnodup, _, _⟩ := h3
  have hdisj := (List.nodup_flatten.mp hnodup).2
  have hpairRaw := List.pairwise_map.mp hdisj
  refine List.Pairwise.perm ?_ (stableSortBy_perm _ _).symm ?_
  · rw [List.pairwise_map]
    exact hpairRaw.imp (fun hab f hf hg => hab hf hg)
  · intro x y hxy f hf hg
    exact hxy f hg hf

/-- C9 witness: on a concrete categorised-forms input exercising all three
linkage priorities (full-name anchor with linked part, possessive and titled
variant; titled-name group adopting its name part; leftover single names),
no form lands in two groups. -/
theorem buildEntityGroups_forms_disjoint_witness :
    (∀ fn ∈ c9Forms.fullNames, endsPossessive fn.form = false ∧
      ∀ p ∈ splitWs fn.form, endsPossessive p = false) ∧
    (∀ tn ∈ c9Forms.titledNames, endsPossessive tn.form = false ∧
      endsPossessive tn.name = false) ∧
    (∀ sn ∈ c9Forms.singleNames, endsPossessive sn.form = false) ∧
    List.Pairwise (fun g₁ g₂ => ∀ f, f ∈ g₁.variants.map (fun v => v.form) →
      f ∉ g₂.variants.map (fun v => v.form))
      (buildEntityGroups c9Forms c9Counts []) :=
  ⟨by decide, by decide, by decide,
   buildEntityGroups_forms_disjoint c9Forms c9Counts []
     (by decide) (by decide) (by decide)⟩
